import Mathlib

/-!
# Header annotations of vsearch (`attributes.cc`) and the heap of `minheap.h`

A shallow embedding of `header_find_attribute`, `header_get_size`,
`header_fprint_strip_size_ee` and `header_fprint_strip_size`, and of the
inline functions `minheap_isempty` and `minheap_empty`, followed by theorems
about them.

Conventions of the embedding.

* A C string is represented by its text: the list of the characters that
  stand before the terminating NUL.  Reading the position just after the
  text yields NUL, as in C; the embedding extends this to every later
  position.
* `int` values are unbounded integers (`Int`): headers are taken to be short
  enough (below `2^31 - 2` characters) for no `int` computation to overflow.
* A loop is a function with a fuel argument; `none` as outermost result
  means that the fuel ran out.  The entry points supply `header_length + 1`
  units of fuel, which is shown to be sufficient.
* `FILE *` output is the list of characters written.
-/

namespace Vsearch

/-! ## C library -/

/-- C `strlen` on the text of a string. -/
def strlen (s : List Char) : Nat := s.length

/-- The expression `s[k]` for a C string with text `s`. -/
def charAt (s : List Char) (k : Int) : Char :=
  if k < 0 then '\x00' else s.getD k.toNat '\x00'

/-- C `strstr hay needle`: offset of the first occurrence of `needle` in
`hay`, `none` for a NULL result. -/
def strstr : List Char → List Char → Option Nat
  | [], needle => if needle = [] then some 0 else none
  | c :: hay, needle =>
    if needle.isPrefixOf (c :: hay) then some 0
    else (strstr hay needle).map (· + 1)

/-- C `strspn s accept`: length of the longest initial segment of `s` made of
characters of `accept`. -/
def strspn (s accept : List Char) : Nat :=
  (s.takeWhile (fun c => accept.contains c)).length

/-- C `isspace` in the "C" locale. -/
def isspace (c : Char) : Bool :=
  c = ' ' || c = '\t' || c = '\n' || c = '\x0b' || c = '\x0c' || c = '\r'

/-- Largest value of a 64-bit `long`. -/
def LONG_MAX : Int := 2 ^ 63 - 1

/-- Smallest value of a 64-bit `long`. -/
def LONG_MIN : Int := -(2 ^ 63)

/-- Value of a decimal digit character. -/
def digitValue (c : Char) : Nat := c.toNat - 48

/-- Value of a string of decimal digits, accumulated from the left as
`strtol` does. -/
def decimalValue (l : List Char) : Nat :=
  l.foldl (fun acc c => 10 * acc + digitValue c) 0

/-- The optional sign that `strtol` reads: whether the value is negated, and
the rest of the string. -/
def readSign (s : List Char) : Bool × List Char :=
  match s with
  | '-' :: t => (true, t)
  | '+' :: t => (false, t)
  | _ => (false, s)

/-- C `atol` with a 64-bit `long`, as `strtol (s, NULL, 10)`: leading white
space is skipped, an optional sign is read, then the longest run of decimal
digits; a value out of range saturates. -/
def atol (s : List Char) : Int :=
  let s1 := s.dropWhile isspace
  let signed : Bool × List Char := readSign s1
  let v : Nat := decimalValue (signed.2.takeWhile Char.isDigit)
  let r : Int := if signed.1 then -(v : Int) else (v : Int)
  if r > LONG_MAX then LONG_MAX else if r < LONG_MIN then LONG_MIN else r

/-- C `fprintf (fp, "%.*s", precision, s)`: at most `precision` characters
of `s` are written; a negative precision counts as omitted. -/
def fprintf_s (precision : Int) (s : List Char) : List Char :=
  if precision < 0 then s else s.take precision.toNat

/-- Modelled from the spec: `fatal` is defined outside `attributes.cc`; the
spec treats it as an injected fail/abort capability, so a call ends the
computation with the message. -/
def fatal (msg : String) : Except String Int := Except.error msg

/-! ## `header_find_attribute` -/

/-- Local `digit_chars`. -/
def digit_chars : List Char := "0123456789".toList

/-- Local `digit_chars_decimal`. -/
def digit_chars_decimal : List Char := "0123456789.".toList

/-- The `while` loop of `header_find_attribute`, entered with resume cursor
`i`.  Result `some (some (start, end))` stands for `return true` with the two
output parameters set, `some none` for `return false`. -/
def header_find_attribute_loop (header : List Char) (hlen : Int) (attr : List Char)
    (allow_decimal : Bool) : Nat → Int → Option (Option (Int × Int))
  | 0, _ => none
  | fuel + 1, i =>
    let alen : Int := strlen attr
    if i < hlen - alen then
      match strstr (header.drop i.toNat) attr with
      | none => some none
      | some off =>
        let i : Int := i + off
        if i > 0 ∧ charAt header (i - 1) ≠ ';' then
          header_find_attribute_loop header hlen attr allow_decimal fuel (i + alen + 1)
        else
          let digits : Int :=
            strspn (header.drop (i + alen).toNat)
              (if allow_decimal then digit_chars_decimal else digit_chars)
          if digits = 0 then
            header_find_attribute_loop header hlen attr allow_decimal fuel (i + alen + 1)
          else if i + alen + digits < hlen ∧ charAt header (i + alen + digits) ≠ ';' then
            header_find_attribute_loop header hlen attr allow_decimal fuel
              (i + alen + digits + 2)
          else
            some (some (i, i + alen + digits))
    else
      some none

/-- Function `header_find_attribute`.  Both strings are given by their text,
so the guard that returns false for a NULL `header` or `attribute` does not
apply; the `while` loop runs with `header_length + 1` units of fuel. -/
def header_find_attribute (header : List Char) (hlen : Int) (attr : List Char)
    (allow_decimal : Bool) : Option (Option (Int × Int)) :=
  header_find_attribute_loop header hlen attr allow_decimal (hlen.toNat + 1) 0

/-! ## `header_get_size` -/

/-- Function `header_get_size`: `Except.error` is a call of `fatal`. -/
def header_get_size (header : List Char) (hlen : Int) : Option (Except String Int) :=
  match header_find_attribute header hlen "size=".toList false with
  | none => none
  | some none => some (Except.ok 0)
  | some (some (start, _)) =>
    let number : Int := atol (header.drop (start + 5).toNat)
    if number > 0 then some (Except.ok number)
    else some (fatal "Invalid (zero) abundance annotation in FASTA file header")

/-! ## `header_fprint_strip_size_ee` -/

/-- The two-element sort of `attribute_start` / `attribute_end`. -/
def sort_attributes : List (Int × Int) → List (Int × Int)
  | [a, b] => if a.1 > b.1 then [b, a] else [a, b]
  | l => l

/-- One turn of the printing `for` loop: the state is the text written so far
and `prev_end`. -/
def print_step (header : List Char) (st : List Char × Int) (a : Int × Int) :
    List Char × Int :=
  (if a.1 > st.2 + 1 then st.1 ++ fprintf_s (a.1 - st.2 - 1) (header.drop st.2.toNat)
   else st.1, a.2)

/-- The printing branch of `header_fprint_strip_size_ee` for the sorted
ranges. -/
def print_stripped (header : List Char) (hlen : Int) (attrs : List (Int × Int)) :
    List Char :=
  if attrs.length = 0 then fprintf_s hlen header
  else
    let st := attrs.foldl (print_step header) ([], 0)
    if hlen > st.2 + 1 then st.1 ++ fprintf_s (hlen - st.2) (header.drop st.2.toNat)
    else st.1

/-- Function `header_fprint_strip_size_ee`; the result is the text written
to `fp`. -/
def header_fprint_strip_size_ee (header : List Char) (hlen : Int)
    (strip_size strip_ee : Bool) : Option (List Char) :=
  match (if strip_size then header_find_attribute header hlen "size=".toList false
         else some none) with
  | none => none
  | some size_found =>
    match (if strip_ee then header_find_attribute header hlen "ee=".toList true
           else some none) with
    | none => none
    | some ee_found =>
      let attrs : List (Int × Int) := size_found.toList ++ ee_found.toList
      some (print_stripped header hlen (sort_attributes attrs))

/-- Function `header_fprint_strip_size`. -/
def header_fprint_strip_size (header : List Char) (hlen : Int) : Option (List Char) :=
  header_fprint_strip_size_ee header hlen true false

/-! ## `minheap.h` -/

/-- Type `elem_t` (`struct topscore`): three `unsigned int` fields. -/
structure elem_t where
  count : Nat
  seqno : Nat
  length : Nat
  deriving DecidableEq

/-- Type `minheap_t` (`struct minheap_s`); the field `array` is the content of
the backing array that the pointer refers to. -/
structure minheap_t where
  alloc : Int
  count : Int
  array : List elem_t
  deriving DecidableEq

/-- Inline function `minheap_isempty`: the value of `!m->count`, which is 1
for a zero count and 0 otherwise. -/
def minheap_isempty (m : minheap_t) : Int :=
  if m.count = 0 then 1 else 0

/-- Inline function `minheap_empty`: the assignment `m->count = 0`; the
result is the heap state afterwards. -/
def minheap_empty (m : minheap_t) : minheap_t :=
  { m with count := 0 }

/-! ## Specification vocabulary -/

/-- Characters accepted in the value, as selected by `allow_decimal`. -/
def allowed (allow_decimal : Bool) : List Char :=
  if allow_decimal then digit_chars_decimal else digit_chars

/-- Length of the value run that the code measures behind the attribute name
starting at offset `j`. -/
def runLen (H A : List Char) (dec : Bool) (j : Nat) : Nat :=
  strspn (H.drop (j + A.length)) (allowed dec)

/-- The three tests of the loop body, all passed by the candidate at offset
`j`: the name stands at `j`, the front boundary is right, the value run is not
empty and the terminator is right. -/
def acceptsAt (H : List Char) (hlen : Int) (A : List Char) (dec : Bool) (j : Nat) : Prop :=
  A <+: H.drop j ∧ (j = 0 ∨ H.getD (j - 1) '\x00' = ';') ∧ 0 < runLen H A dec j ∧
    (hlen ≤ ((j + A.length + runLen H A dec j : Nat) : Int) ∨
      H.getD (j + A.length + runLen H A dec j) '\x00' = ';')

instance (H : List Char) (hlen : Int) (A : List Char) (dec : Bool) (j : Nat) :
    Decidable (acceptsAt H hlen A dec j) := by
  unfold acceptsAt; infer_instance

/-- What the loop entered at cursor `k` must return: the first accepted
candidate at or after `k`, or `false` when there is none. -/
def LoopSpec (H : List Char) (hlen : Int) (A : List Char) (dec : Bool) (k : Nat)
    (res : Option (Option (Int × Int))) : Prop :=
  (∃ j, k ≤ j ∧ acceptsAt H hlen A dec j ∧ (∀ j', k ≤ j' → j' < j → ¬ acceptsAt H hlen A dec j') ∧
      res = some (some ((j : Int), ((j + A.length + runLen H A dec j : Nat) : Int)))) ∨
  ((∀ j, k ≤ j → ¬ acceptsAt H hlen A dec j) ∧ res = some none)

/-! ### The header micro-grammar, in the words of the specification -/

/-- Start-of-header or `;` stands immediately before offset `j`. -/
def frontBoundary (H : List Char) (j : Nat) : Prop :=
  j = 0 ∨ H[j - 1]? = some ';'

/-- End-of-header or `;` stands at offset `e`. -/
def endBoundary (H : List Char) (e : Nat) : Prop :=
  e = H.length ∨ H[e]? = some ';'

/-- The slice `H[j .. j + |A|)` equals `A`. -/
def nameAt (H A : List Char) (j : Nat) : Prop :=
  (H.drop j).take A.length = A

/-- The `k` characters of `H` from offset `a` on exist and all satisfy `p`. -/
def charsAt (p : Char → Prop) (H : List Char) (a k : Nat) : Prop :=
  ∀ t, t < k → ∃ c, H[a + t]? = some c ∧ p c

/-- A character `0`-`9`. -/
def isDigitChar (c : Char) : Prop := c.isDigit = true

/-- A character allowed in a value: a digit, or `.` when decimals are
allowed. -/
def isValueChar (dec : Bool) (c : Char) : Prop :=
  c.isDigit = true ∨ (dec = true ∧ c = '.')

/-- A token `size=<digits>` starts at offset `j`: the name, preceded by
start-of-header or `;`, followed by one or more digits and then `;` or
end-of-header. -/
def sizeTokenAt (H : List Char) (j : Nat) : Prop :=
  nameAt H "size=".toList j ∧ frontBoundary H j ∧
    ∃ k, 0 < k ∧ charsAt isDigitChar H (j + 5) k ∧ endBoundary H (j + 5 + k)

/-- A token `ee=<digits>[.<digits>]` starts at offset `j`. -/
def eeTokenAt (H : List Char) (j : Nat) : Prop :=
  nameAt H "ee=".toList j ∧ frontBoundary H j ∧
    ∃ k, 0 < k ∧ charsAt isDigitChar H (j + 3) k ∧
      (endBoundary H (j + 3 + k) ∨
        (H[j + 3 + k]? = some '.' ∧
          ∃ m, 0 < m ∧ charsAt isDigitChar H (j + 3 + k + 1) m ∧
            endBoundary H (j + 3 + k + 1 + m)))

/-- A token in the sense of the code starts at offset `j`: the name `A`,
preceded by start-of-header or `;`, followed by one or more allowed value
characters and then `;` or end-of-header. -/
def tokenAt (H A : List Char) (dec : Bool) (j : Nat) : Prop :=
  nameAt H A j ∧ frontBoundary H j ∧
    ∃ k, 0 < k ∧ charsAt (isValueChar dec) H (j + A.length) k ∧
      endBoundary H (j + A.length + k)

/-- The value run of the first size token of `H` consists of `0` characters
only: the token has the numeric value zero. -/
def firstSizeTokenZero (H : List Char) : Prop :=
  ∃ j, sizeTokenAt H j ∧ (∀ j', j' < j → ¬ sizeTokenAt H j') ∧
    ∃ k, 0 < k ∧ charsAt (fun c => c = '0') H (j + 5) k ∧ endBoundary H (j + 5 + k)

/-- The message of the fatal error raised for a zero abundance. -/
def zeroAbundanceMessage : String :=
  "Invalid (zero) abundance annotation in FASTA file header"

/-! ### Stripped text, in the words of the specification -/

/-- The characters of `l`, a part of the header that starts at offset `p`,
whose offsets are not removed, in their original order. -/
def keepChars (removed : Nat → Bool) : Nat → List Char → List Char
  | _, [] => []
  | p, c :: t =>
    if removed p then keepChars removed (p + 1) t else c :: keepChars removed (p + 1) t

/-- Offset `p` lies in one of the ranges `[start, end)`, or is the separator
position `start - 1` of a range with `start > 0`. -/
def removedClaimed (ranges : List (Int × Int)) (p : Nat) : Bool :=
  ranges.any (fun r =>
    (decide (r.1 ≤ (p : Int)) && decide ((p : Int) < r.2)) ||
      (decide (0 < r.1) && decide ((p : Int) = r.1 - 1)))

/-- Offset `p` is removed as in `removedClaimed`, or it is the last offset of
the header and a range ends exactly there. -/
def removedByCode (hlen : Int) (ranges : List (Int × Int)) (p : Nat) : Bool :=
  removedClaimed ranges p ||
    ranges.any (fun r => decide ((p : Int) = r.2) && decide (r.2 + 1 = hlen))

/-- The call of `header_find_attribute` that `header_fprint_strip_size_ee`
makes for `size=`, when asked to. -/
def sizeLookup (H : List Char) (hlen : Int) (strip_size : Bool) :
    Option (Option (Int × Int)) :=
  if strip_size then header_find_attribute H hlen "size=".toList false else some none

/-- The call of `header_find_attribute` that `header_fprint_strip_size_ee`
makes for `ee=`, when asked to. -/
def eeLookup (H : List Char) (hlen : Int) (strip_ee : Bool) :
    Option (Option (Int × Int)) :=
  if strip_ee then header_find_attribute H hlen "ee=".toList true else some none

/-- The slice `H[a .. b)` of the header, empty when `b <= a`. -/
def slice (H : List Char) (a b : Int) : List Char :=
  (H.drop a.toNat).take (b - a).toNat

/-- The text written behind the last range end `e` of a header of length
`n`: the tail `H[e .. n)` if `n > e + 1`, and nothing otherwise. -/
def tailBehind (H : List Char) (n e : Int) : List Char :=
  if n > e + 1 then slice H e n else []

/-- A non-empty string of digits. -/
def digitString (N : List Char) : Prop :=
  N ≠ [] ∧ ∀ c ∈ N, c.isDigit = true

/-- A value of the form `digits[.digits]`. -/
def decimalString (E : List Char) : Prop :=
  ∃ a, digitString a ∧ (E = a ∨ ∃ b, digitString b ∧ E = a ++ '.' :: b)

/-! # Theorems -/

/-! ## Library facts -/

theorem char_eq_iff_toNat (c d : Char) : c = d ↔ c.toNat = d.toNat := by
  constructor
  · intro h; rw [h]
  · intro h
    apply Char.ext
    apply UInt32.ext
    exact h

theorem isDigit_iff_mem (c : Char) : c.isDigit = true ↔ c ∈ digit_chars := by
  have h0 : c.isDigit = true ↔ 48 ≤ c.toNat ∧ c.toNat ≤ 57 := by
    simp only [Char.isDigit, Bool.and_eq_true, decide_eq_true_eq]
    exact Iff.rfl
  rw [h0]
  simp only [digit_chars, String.toList, List.mem_cons, char_eq_iff_toNat c, List.mem_nil_iff,
    or_false]
  have e0 : ('0' : Char).toNat = 48 := rfl
  have e1 : ('1' : Char).toNat = 49 := rfl
  have e2 : ('2' : Char).toNat = 50 := rfl
  have e3 : ('3' : Char).toNat = 51 := rfl
  have e4 : ('4' : Char).toNat = 52 := rfl
  have e5 : ('5' : Char).toNat = 53 := rfl
  have e6 : ('6' : Char).toNat = 54 := rfl
  have e7 : ('7' : Char).toNat = 55 := rfl
  have e8 : ('8' : Char).toNat = 56 := rfl
  have e9 : ('9' : Char).toNat = 57 := rfl
  rw [e0, e1, e2, e3, e4, e5, e6, e7, e8, e9]
  omega

theorem charAt_natCast (s : List Char) (k : Nat) : charAt s (k : Int) = s.getD k '\x00' := by
  simp [charAt]

theorem starts_getElem? {A L : List Char} (h : A <+: L) {t : Nat} (ht : t < A.length) :
    L[t]? = A[t]? := by
  obtain ⟨r, rfl⟩ := h
  exact List.getElem?_append_left ht

theorem starts_drop_length {A H : List Char} {j : Nat} (h : A <+: H.drop j) :
    A.length ≤ H.length - j := by
  have := h.length_le
  simpa using this

theorem starts_drop_getElem? {A H : List Char} {j : Nat} (h : A <+: H.drop j) {t : Nat}
    (ht : t < A.length) : H[j + t]? = A[t]? := by
  rw [← List.getElem?_drop]
  exact starts_getElem? h ht

theorem isPrefixOf_starts {A B : List Char} : A.isPrefixOf B = true ↔ A <+: B :=
  List.isPrefixOf_iff_prefix

theorem strstr_some {hay needle : List Char} {off : Nat} (h : strstr hay needle = some off) :
    needle <+: hay.drop off ∧ ∀ k, k < off → ¬ needle <+: hay.drop k := by
  induction hay generalizing off with
  | nil =>
    simp only [strstr] at h
    split at h
    · rename_i hn
      cases h
      subst hn
      simp
    · cases h
  | cons c hay ih =>
    simp only [strstr] at h
    split at h
    · rename_i hp
      cases h
      refine ⟨?_, fun k hk => absurd hk (Nat.not_lt_zero k)⟩
      simpa using isPrefixOf_starts.mp hp
    · rename_i hp
      cases hs : strstr hay needle with
      | none => rw [hs] at h; cases h
      | some o =>
        rw [hs] at h
        simp only [Option.map_some'] at h
        cases h
        obtain ⟨h1, h2⟩ := ih hs
        refine ⟨by simpa using h1, ?_⟩
        intro k hk
        cases k with
        | zero =>
          intro hc
          exact hp (isPrefixOf_starts.mpr (by simpa using hc))
        | succ k =>
          have := h2 k (by omega)
          simpa using this

theorem strstr_none {hay needle : List Char} (h : strstr hay needle = none) :
    ∀ k, ¬ needle <+: hay.drop k := by
  induction hay with
  | nil =>
    simp only [strstr] at h
    split at h
    · cases h
    · rename_i hn
      intro k hk
      simp at hk
      exact hn hk
  | cons c hay ih =>
    simp only [strstr] at h
    split at h
    · cases h
    · rename_i hp
      cases hs : strstr hay needle with
      | some o => rw [hs] at h; cases h
      | none =>
        intro k
        cases k with
        | zero =>
          intro hc
          exact hp (isPrefixOf_starts.mpr (by simpa using hc))
        | succ k => simpa using ih hs k

theorem strspn_le (s acc : List Char) : strspn s acc ≤ s.length := by
  unfold strspn
  exact List.IsPrefix.length_le ( List.takeWhile_prefix _)

theorem strspn_mem (s acc : List Char) :
    ∀ t, t < strspn s acc → ∃ c, s[t]? = some c ∧ c ∈ acc := by
  unfold strspn
  induction s with
  | nil => intro t ht; simp at ht
  | cons a s ih =>
    intro t ht
    rw [List.takeWhile_cons] at ht
    split at ht
    · rename_i ha
      cases t with
      | zero => exact ⟨a, by simp, List.elem_iff.mp ha⟩
      | succ t =>
        simp only [List.length_cons] at ht
        have := ih t (by omega)
        simpa using this
    · simp at ht

theorem strspn_stop (s acc : List Char) :
    ∀ c, s[strspn s acc]? = some c → c ∉ acc := by
  unfold strspn
  induction s with
  | nil => intro c hc; simp at hc
  | cons a s ih =>
    intro c hc
    rw [List.takeWhile_cons] at hc
    split at hc
    · simp only [List.length_cons, List.getElem?_cons_succ] at hc
      exact ih c hc
    · rename_i ha
      simp only [List.length_nil, List.getElem?_cons_zero, Option.some.injEq] at hc
      subst hc
      intro hm
      exact ha (List.elem_iff.mpr hm)

theorem strspn_eq (s acc : List Char) (k : Nat)
    (hin : ∀ t, t < k → ∃ c, s[t]? = some c ∧ c ∈ acc)
    (hout : ∀ c, s[k]? = some c → c ∉ acc) : strspn s acc = k := by
  rcases Nat.lt_trichotomy (strspn s acc) k with h | h | h
  · obtain ⟨c, hc, hm⟩ := hin _ h
    exact absurd hm (strspn_stop s acc c hc)
  · exact h
  · obtain ⟨c, hc, hm⟩ := strspn_mem s acc k h
    exact absurd hm (hout c hc)

/-- One turn of the loop, written over natural-number offsets. -/
theorem loop_unfold (H : List Char) (hlen : Int) (A : List Char) (dec : Bool)
    (fuel k : Nat) :
    header_find_attribute_loop H hlen A dec (fuel + 1) (k : Int) =
      if (k : Int) + A.length < hlen then
        match strstr (H.drop k) A with
        | none => some none
        | some off =>
          if 0 < k + off ∧ H.getD (k + off - 1) '\x00' ≠ ';' then
            header_find_attribute_loop H hlen A dec fuel ((k + off + A.length + 1 : Nat) : Int)
          else if runLen H A dec (k + off) = 0 then
            header_find_attribute_loop H hlen A dec fuel ((k + off + A.length + 1 : Nat) : Int)
          else if ((k + off + A.length + runLen H A dec (k + off) : Nat) : Int) < hlen
              ∧ H.getD (k + off + A.length + runLen H A dec (k + off)) '\x00' ≠ ';' then
            header_find_attribute_loop H hlen A dec fuel
              ((k + off + A.length + runLen H A dec (k + off) + 2 : Nat) : Int)
          else
            some (some (((k + off : Nat) : Int),
              ((k + off + A.length + runLen H A dec (k + off) : Nat) : Int)))
      else some none := by
  rw [header_find_attribute_loop]
  simp only [strlen, Int.toNat_ofNat, runLen]
  have hc : ((k : Int) < hlen - (A.length : Int)) ↔ ((k : Int) + A.length < hlen) := by omega
  simp only [hc]
  split
  · cases hs : strstr (H.drop k) A with
    | none => rfl
    | some off =>
      simp only []
      have h1 : ∀ a b : Nat, (a : Int) + (b : Int) = ((a + b : Nat) : Int) := by
        intro a b; push_cast; rfl
      have h2 : ∀ a : Nat, (a : Int) + 1 = ((a + 1 : Nat) : Int) := by
        intro a; push_cast; rfl
      have h3 : ∀ a : Nat, (a : Int) + 2 = ((a + 2 : Nat) : Int) := by
        intro a; push_cast; rfl
      have h4 : ∀ a : Nat, ((a : Int) = 0) ↔ a = 0 := by
        intro a; omega
      have h5 : ∀ a : Nat, ((a : Int) > 0) ↔ 0 < a := by
        intro a; omega
      have h6 : ∀ a : Nat, 0 < a → charAt H ((a : Int) - 1) = H.getD (a - 1) '\x00' := by
        intro a ha
        have : (a : Int) - 1 = ((a - 1 : Nat) : Int) := by omega
        rw [this, charAt_natCast]
      simp only [h1, h2, h3, h4, h5, Int.toNat_ofNat, charAt_natCast, allowed]
      by_cases hpos : 0 < k + off
      · rw [h6 _ hpos]
      · simp [hpos]
  · rfl

theorem LoopSpec.extend {H : List Char} {hlen : Int} {A : List Char} {dec : Bool} {k : Nat}
    (k' : Nat)
    {res : Option (Option (Int × Int))} (hk : k ≤ k')
    (hno : ∀ j, k ≤ j → j < k' → ¬ acceptsAt H hlen A dec j)
    (h : LoopSpec H hlen A dec k' res) : LoopSpec H hlen A dec k res := by
  rcases h with ⟨j, hj, hacc, hfirst, hres⟩ | ⟨hnone, hres⟩
  · left
    refine ⟨j, by omega, hacc, ?_, hres⟩
    intro j' h1 h2
    by_cases h3 : j' < k'
    · exact hno j' h1 h3
    · exact hfirst j' (by omega) h2
  · right
    refine ⟨?_, hres⟩
    intro j h1
    by_cases h3 : j < k'
    · exact hno j h1 h3
    · exact hnone j (by omega)

theorem sep_not_mem_allowed (dec : Bool) : ';' ∉ allowed dec := by
  cases dec <;> decide

theorem getD_eq_of_getElem? {H : List Char} {n : Nat} {c : Char} (h : H[n]? = some c) :
    H.getD n '\x00' = c := by
  rw [List.getD_eq_getElem?_getD, h]; rfl

/-- An accepted candidate lies inside the text. -/
theorem acceptsAt_bound {H : List Char} {hlen : Int} {A : List Char} {dec : Bool} {j : Nat}
    (h : acceptsAt H hlen A dec j) : j + A.length + runLen H A dec j ≤ H.length ∧
      j + A.length < H.length := by
  obtain ⟨hp, _, hr, _⟩ := h
  have h1 := starts_drop_length hp
  have h2 : runLen H A dec j ≤ (H.drop (j + A.length)).length := strspn_le _ _
  simp only [List.length_drop] at h2
  omega

/-- No candidate of any name is accepted right behind an occurrence of the
name `A`: the character in front of it would belong to `A`. -/
theorem no_accept_in_name {H : List Char} {hlen : Int} {A B : List Char} {dec : Bool}
    (hA : ';' ∉ A) {j0 : Nat} (hocc : A <+: H.drop j0) {j : Nat} (h1 : j0 < j)
    (h2 : j ≤ j0 + A.length) : ¬ acceptsAt H hlen B dec j := by
  rintro ⟨_, hb, _, _⟩
  rcases hb with hb | hb
  · omega
  · have ht : j - 1 - j0 < A.length := by omega
    have hget := starts_drop_getElem? hocc ht
    have e : j0 + (j - 1 - j0) = j - 1 := by omega
    rw [e] at hget
    have hlt : j - 1 - j0 < A.length := ht
    have : A[j - 1 - j0]? = some (A[j - 1 - j0]) := List.getElem?_eq_getElem hlt
    rw [this] at hget
    rw [getD_eq_of_getElem? hget] at hb
    exact hA (hb ▸ List.getElem_mem _)

/-- No candidate of any name is accepted right behind a value character. -/
theorem no_accept_in_run {H : List Char} {hlen : Int} {A B : List Char} {dec dec2 : Bool}
    {j0 : Nat} {j : Nat} (h1 : j0 + A.length < j)
    (h2 : j ≤ j0 + A.length + runLen H A dec j0) : ¬ acceptsAt H hlen B dec2 j := by
  rintro ⟨_, hb, _, _⟩
  rcases hb with hb | hb
  · omega
  · have ht : j - 1 - (j0 + A.length) < runLen H A dec j0 := by omega
    obtain ⟨c, hc, hm⟩ := strspn_mem _ _ _ ht
    rw [List.getElem?_drop] at hc
    have e : j0 + A.length + (j - 1 - (j0 + A.length)) = j - 1 := by omega
    rw [e] at hc
    rw [getD_eq_of_getElem? hc] at hb
    exact sep_not_mem_allowed dec (hb ▸ hm)

/-- The loop, entered at cursor `k` with enough fuel, returns the first
accepted candidate at or after `k`. -/
theorem loop_spec (H A : List Char) (dec : Bool) (hA : ';' ∉ A) :
    ∀ (fuel k : Nat), ((H.length : Int) - A.length - k).toNat < fuel →
      LoopSpec H H.length A dec k (header_find_attribute_loop H H.length A dec fuel k) := by
  intro fuel
  induction fuel with
  | zero => intro k hk; omega
  | succ fuel ih =>
    intro k hfuel
    rw [loop_unfold]
    by_cases hc : (k : Int) + A.length < H.length
    · rw [if_pos hc]
      cases hs : strstr (H.drop k) A with
      | none =>
        right
        refine ⟨?_, rfl⟩
        intro j hj hacc
        have hno := strstr_none hs (j - k)
        rw [List.drop_drop] at hno
        have e : k + (j - k) = j := by omega
        rw [e] at hno
        exact hno hacc.1
      | some off =>
        obtain ⟨hocc, hfirst⟩ := strstr_some hs
        rw [List.drop_drop] at hocc
        have hbefore : ∀ j, k ≤ j → j < k + off → ¬ acceptsAt H H.length A dec j := by
          intro j h1 h2 hacc
          have hno := hfirst (j - k) (by omega)
          rw [List.drop_drop] at hno
          have e : k + (j - k) = j := by omega
          rw [e] at hno
          exact hno hacc.1
        simp only []
        by_cases hb : 0 < k + off ∧ H.getD (k + off - 1) '\x00' ≠ ';'
        · rw [if_pos hb]
          apply LoopSpec.extend (k + off + A.length + 1) (by omega) _ (ih _ (by omega))
          intro j h1 h2
          by_cases h3 : j < k + off
          · exact hbefore j h1 h3
          · by_cases h4 : j = k + off
            · subst h4
              rintro ⟨_, hbd, _, _⟩
              rcases hbd with hbd | hbd
              · omega
              · exact hb.2 hbd
            · exact no_accept_in_name hA hocc (by omega) (by omega)
        · rw [if_neg hb]
          by_cases hd : runLen H A dec (k + off) = 0
          · rw [if_pos hd]
            apply LoopSpec.extend (k + off + A.length + 1) (by omega) _ (ih _ (by omega))
            intro j h1 h2
            by_cases h3 : j < k + off
            · exact hbefore j h1 h3
            · by_cases h4 : j = k + off
              · subst h4
                rintro ⟨_, _, hr, _⟩
                omega
              · exact no_accept_in_name hA hocc (by omega) (by omega)
          · rw [if_neg hd]
            by_cases ht : ((k + off + A.length + runLen H A dec (k + off) : Nat) : Int) < H.length
                ∧ H.getD (k + off + A.length + runLen H A dec (k + off)) '\x00' ≠ ';'
            · rw [if_pos ht]
              apply LoopSpec.extend (k + off + A.length + runLen H A dec (k + off) + 2)
                (by omega) _ (ih _ (by omega))
              intro j h1 h2
              by_cases h3 : j < k + off
              · exact hbefore j h1 h3
              · by_cases h4 : j = k + off
                · subst h4
                  rintro ⟨_, _, _, hterm⟩
                  rcases hterm with hterm | hterm
                  · omega
                  · exact ht.2 hterm
                · by_cases h5 : j ≤ k + off + A.length
                  · exact no_accept_in_name hA hocc (by omega) h5
                  · by_cases h6 : j ≤ k + off + A.length + runLen H A dec (k + off)
                    · exact no_accept_in_run (by omega) h6
                    · have h7 : j = k + off + A.length + runLen H A dec (k + off) + 1 := by omega
                      rintro ⟨_, hbd, _, _⟩
                      rcases hbd with hbd | hbd
                      · omega
                      · rw [h7] at hbd
                        exact ht.2 hbd
            · rw [if_neg ht]
              left
              refine ⟨k + off, by omega, ⟨hocc, ?_, by omega, ?_⟩, ?_, rfl⟩
              · by_cases h0 : k + off = 0
                · left; exact h0
                · right
                  by_contra hne
                  exact hb ⟨by omega, hne⟩
              · by_cases hl : ((k + off + A.length + runLen H A dec (k + off) : Nat) : Int)
                    < H.length
                · right
                  by_contra hne
                  exact ht ⟨hl, hne⟩
                · left; omega
              · intro j' h1 h2
                exact hbefore j' h1 h2
    · rw [if_neg hc]
      right
      refine ⟨?_, rfl⟩
      intro j hj hacc
      have := (acceptsAt_bound hacc).2
      omega

/-- Function `header_find_attribute` on a header whose length is its text
length returns the first accepted candidate, or `false` when none exists. -/
theorem find_spec (H A : List Char) (dec : Bool) (hA : ';' ∉ A) :
    LoopSpec H H.length A dec 0 (header_find_attribute H H.length A dec) := by
  unfold header_find_attribute
  have := loop_spec H A dec hA ((H.length : Int).toNat + 1) 0 (by omega)
  simpa using this

/-! ## Soundness and termination for every `header_length` -/

theorem loop_sound (H : List Char) (hlen : Int) (A : List Char) (dec : Bool) :
    ∀ (fuel k : Nat) (s e : Int),
      header_find_attribute_loop H hlen A dec fuel k = some (some (s, e)) →
      ∃ j, k ≤ j ∧ s = (j : Int) ∧ e = ((j + A.length + runLen H A dec j : Nat) : Int) ∧
        acceptsAt H hlen A dec j := by
  intro fuel
  induction fuel with
  | zero => intro k s e h; simp [header_find_attribute_loop] at h
  | succ fuel ih =>
    intro k s e h
    rw [loop_unfold] at h
    split at h
    · cases hs : strstr (H.drop k) A with
      | none => rw [hs] at h; simp at h
      | some off =>
        rw [hs] at h
        simp only [] at h
        obtain ⟨hocc, -⟩ := strstr_some hs
        rw [List.drop_drop] at hocc
        split at h
        · obtain ⟨j, hj, r⟩ := ih _ s e h
          exact ⟨j, by omega, r⟩
        · rename_i hb
          split at h
          · obtain ⟨j, hj, r⟩ := ih _ s e h
            exact ⟨j, by omega, r⟩
          · rename_i hd
            split at h
            · obtain ⟨j, hj, r⟩ := ih _ s e h
              exact ⟨j, by omega, r⟩
            · rename_i ht
              simp only [Option.some.injEq, Prod.mk.injEq] at h
              refine ⟨k + off, by omega, h.1.symm, h.2.symm, hocc, ?_, by omega, ?_⟩
              · by_cases h0 : k + off = 0
                · left; exact h0
                · right
                  by_contra hne
                  exact hb ⟨by omega, hne⟩
              · by_cases hl : ((k + off + A.length + runLen H A dec (k + off) : Nat) : Int) < hlen
                · right
                  by_contra hne
                  exact ht ⟨hl, hne⟩
                · left; omega
    · simp at h

theorem loop_total (H : List Char) (hlen : Int) (A : List Char) (dec : Bool) :
    ∀ (fuel k : Nat), (hlen - A.length - k).toNat < fuel →
      header_find_attribute_loop H hlen A dec fuel k ≠ none := by
  intro fuel
  induction fuel with
  | zero => intro k hk; omega
  | succ fuel ih =>
    intro k hk
    rw [loop_unfold]
    split
    · cases hs : strstr (H.drop k) A with
      | none => simp
      | some off =>
        simp only []
        split
        · exact ih _ (by omega)
        · split
          · exact ih _ (by omega)
          · split
            · exact ih _ (by omega)
            · simp
    · simp

theorem find_total (H : List Char) (hlen : Int) (A : List Char) (dec : Bool) :
    header_find_attribute H hlen A dec ≠ none := by
  unfold header_find_attribute
  exact loop_total H hlen A dec _ 0 (by omega)

theorem find_sound {H : List Char} {hlen : Int} {A : List Char} {dec : Bool} {s e : Int}
    (h : header_find_attribute H hlen A dec = some (some (s, e))) :
    ∃ j : Nat, s = (j : Int) ∧ e = ((j + A.length + runLen H A dec j : Nat) : Int) ∧
      acceptsAt H hlen A dec j := by
  unfold header_find_attribute at h
  obtain ⟨j, -, r⟩ := loop_sound H hlen A dec _ 0 s e h
  exact ⟨j, r⟩

/-! ## The code's tests and the grammar -/

theorem getD_sep_iff (H : List Char) (n : Nat) :
    H.getD n '\x00' = ';' ↔ H[n]? = some ';' := by
  rw [List.getD_eq_getElem?_getD]
  cases h : H[n]? with
  | none => simp
  | some c => simp

theorem nameAt_iff_starts (H A : List Char) (j : Nat) : nameAt H A j ↔ A <+: H.drop j := by
  unfold nameAt
  rw [ List.prefix_iff_eq_take]
  exact eq_comm

theorem isValueChar_iff_mem (dec : Bool) (c : Char) : isValueChar dec c ↔ c ∈ allowed dec := by
  unfold isValueChar allowed
  cases dec
  · simp [isDigit_iff_mem]
  · simp only [true_and, if_true]
    rw [isDigit_iff_mem]
    simp [digit_chars, digit_chars_decimal]
    tauto

theorem frontBoundary_iff (H : List Char) (j : Nat) :
    frontBoundary H j ↔ (j = 0 ∨ H.getD (j - 1) '\x00' = ';') := by
  unfold frontBoundary
  rw [getD_sep_iff]

/-- The value of a token is the run that the code measures. -/
theorem runLen_eq_of_chars {H A : List Char} {dec : Bool} {j k : Nat}
    (hch : charsAt (isValueChar dec) H (j + A.length) k)
    (hend : endBoundary H (j + A.length + k)) : runLen H A dec j = k := by
  unfold runLen
  apply strspn_eq
  · intro t ht
    obtain ⟨c, hc, hv⟩ := hch t ht
    exact ⟨c, by rw [List.getElem?_drop]; exact hc, (isValueChar_iff_mem dec c).mp hv⟩
  · intro c hc
    rw [List.getElem?_drop] at hc
    rcases hend with hend | hend
    · have : H[j + A.length + k]? = none := List.getElem?_eq_none (by omega)
      rw [this] at hc; cases hc
    · rw [hend] at hc
      cases hc
      exact sep_not_mem_allowed dec

theorem runLen_chars (H A : List Char) (dec : Bool) (j : Nat) :
    charsAt (isValueChar dec) H (j + A.length) (runLen H A dec j) := by
  intro t ht
  obtain ⟨c, hc, hm⟩ := strspn_mem _ _ t ht
  rw [List.getElem?_drop] at hc
  exact ⟨c, hc, (isValueChar_iff_mem dec c).mpr hm⟩

theorem runLen_stop (H A : List Char) (dec : Bool) (j : Nat) (c : Char)
    (hc : H[j + A.length + runLen H A dec j]? = some c) : ¬ isValueChar dec c := by
  rw [isValueChar_iff_mem]
  apply strspn_stop (H.drop (j + A.length)) (allowed dec)
  rw [List.getElem?_drop]
  exact hc

/-- The tests of the loop body accept exactly the tokens of the grammar. -/
theorem tokenAt_iff_acceptsAt (H A : List Char) (dec : Bool) (j : Nat) :
    tokenAt H A dec j ↔ acceptsAt H H.length A dec j := by
  constructor
  · rintro ⟨hn, hf, k, hk, hch, hend⟩
    have hr := runLen_eq_of_chars hch hend
    refine ⟨(nameAt_iff_starts H A j).mp hn, (frontBoundary_iff H j).mp hf, by omega, ?_⟩
    rw [hr]
    rcases hend with hend | hend
    · left; omega
    · right; exact (getD_sep_iff _ _).mpr hend
  · intro hacc
    have hb := acceptsAt_bound hacc
    obtain ⟨hp, hf, hr, ht⟩ := hacc
    refine ⟨(nameAt_iff_starts H A j).mpr hp, (frontBoundary_iff H j).mpr hf,
      runLen H A dec j, hr, runLen_chars H A dec j, ?_⟩
    rcases ht with ht | ht
    · left; omega
    · right; exact (getD_sep_iff _ _).mp ht

theorem sizeTokenAt_iff_tokenAt (H : List Char) (j : Nat) :
    sizeTokenAt H j ↔ tokenAt H "size=".toList false j := by
  unfold sizeTokenAt tokenAt isDigitChar isValueChar
  simp

theorem sep_not_mem_size : ';' ∉ "size=".toList := by decide

theorem sep_not_mem_ee : ';' ∉ "ee=".toList := by decide

/-- Characterisation of the result of `header_find_attribute` on a header
whose length is its text length, in terms of tokens. -/
theorem find_token_spec (H A : List Char) (dec : Bool) (hA : ';' ∉ A) :
    (∃ j, tokenAt H A dec j ∧ (∀ j', j' < j → ¬ tokenAt H A dec j') ∧
      header_find_attribute H H.length A dec =
        some (some ((j : Int), ((j + A.length + runLen H A dec j : Nat) : Int)))) ∨
    ((∀ j, ¬ tokenAt H A dec j) ∧ header_find_attribute H H.length A dec = some none) := by
  rcases find_spec H A dec hA with ⟨j, -, hacc, hfirst, hres⟩ | ⟨hno, hres⟩
  · left
    refine ⟨j, (tokenAt_iff_acceptsAt H A dec j).mpr hacc, ?_, hres⟩
    intro j' hj' ht
    exact hfirst j' (Nat.zero_le _) hj' ((tokenAt_iff_acceptsAt H A dec j').mp ht)
  · right
    refine ⟨?_, hres⟩
    intro j ht
    exact hno j (Nat.zero_le _) ((tokenAt_iff_acceptsAt H A dec j).mp ht)

/-- A run of `k` characters satisfying `p` cannot reach an offset whose
character fails `p`. -/
theorem charsAt_le {p : Char → Prop} {H : List Char} {a k t : Nat} (h : charsAt p H a k)
    (hstop : ∀ c, H[a + t]? = some c → ¬ p c) : k ≤ t := by
  by_contra hlt
  obtain ⟨c, hc, hp⟩ := h t (by omega)
  exact hstop c hc hp

theorem eeTokenAt_tokenAt {H : List Char} {j : Nat} (h : eeTokenAt H j) :
    tokenAt H "ee=".toList true j := by
  obtain ⟨hn, hf, k, hk, hd, hrest⟩ := h
  refine ⟨hn, hf, ?_⟩
  have hlen : "ee=".toList.length = 3 := rfl
  rw [hlen]
  rcases hrest with hend | ⟨hdot, m, hm, hd2, hend⟩
  · refine ⟨k, hk, ?_, hend⟩
    intro t ht
    obtain ⟨c, hc, hp⟩ := hd t ht
    exact ⟨c, hc, Or.inl hp⟩
  · refine ⟨k + 1 + m, by omega, ?_, ?_⟩
    · intro t ht
      by_cases h1 : t < k
      · obtain ⟨c, hc, hp⟩ := hd t h1
        exact ⟨c, hc, Or.inl hp⟩
      · by_cases h2 : t = k
        · subst h2
          exact ⟨'.', hdot, Or.inr ⟨rfl, rfl⟩⟩
        · obtain ⟨c, hc, hp⟩ := hd2 (t - k - 1) (by omega)
          have e : j + 3 + k + 1 + (t - k - 1) = j + 3 + t := by omega
          rw [e] at hc
          exact ⟨c, hc, Or.inl hp⟩
    · have e : j + 3 + (k + 1 + m) = j + 3 + k + 1 + m := by omega
      rw [e]; exact hend

/-- C1. On a header whose length is its text length, `header_find_attribute`
for `size=` without decimals returns true exactly when the header contains a
valid size token (name at start-of-header or behind `;`, one or more digits,
then `;` or end-of-header), and returns false exactly when it contains none. -/
theorem C1_size_found_iff_token (H : List Char) :
    ((∃ r, header_find_attribute H H.length "size=".toList false = some (some r)) ↔
        ∃ j, sizeTokenAt H j) ∧
      (header_find_attribute H H.length "size=".toList false = some none ↔
        ¬ ∃ j, sizeTokenAt H j) := by
  simp only [sizeTokenAt_iff_tokenAt]
  rcases find_token_spec H "size=".toList false sep_not_mem_size with
    ⟨j, ht, -, hres⟩ | ⟨hno, hres⟩
  · rw [hres]
    refine ⟨⟨fun _ => ⟨j, ht⟩, fun _ => ⟨_, rfl⟩⟩, ⟨fun h => by simp at h, fun h => ?_⟩⟩
    exact absurd ⟨j, ht⟩ h
  · rw [hres]
    refine ⟨⟨fun h => ?_, fun h => ?_⟩, ⟨fun _ => ?_, fun _ => rfl⟩⟩
    · obtain ⟨r, hr⟩ := h; simp at hr
    · obtain ⟨j, hj⟩ := h; exact absurd hj (hno j)
    · rintro ⟨j, hj⟩; exact hno j hj

/-- C2. For every header, header length, attribute name and value of
`allow_decimal`: a true result of `header_find_attribute` has the attribute
name at `start` and start-of-header or `;` in front of it; hence when every
occurrence of the name stands behind a character other than `;` the result is
false, as for `xsize=5` and the name `size=`. -/
theorem C2_match_at_boundary_only (H : List Char) (hlen : Int) (A : List Char) (dec : Bool) :
    (∀ s e : Int, header_find_attribute H hlen A dec = some (some (s, e)) →
        ∃ j : Nat, s = (j : Int) ∧ (H.drop j).take A.length = A ∧
          (j = 0 ∨ H[j - 1]? = some ';')) ∧
      ((∀ j : Nat, (H.drop j).take A.length = A → 0 < j ∧ H[j - 1]? ≠ some ';') →
        header_find_attribute H hlen A dec = some none) ∧
      header_find_attribute "xsize=5".toList 7 "size=".toList false = some none := by
  have hsound : ∀ s e : Int, header_find_attribute H hlen A dec = some (some (s, e)) →
      ∃ j : Nat, s = (j : Int) ∧ (H.drop j).take A.length = A ∧
        (j = 0 ∨ H[j - 1]? = some ';') := by
    intro s e h
    obtain ⟨j, hs, -, hp, hf, -, -⟩ := find_sound h
    exact ⟨j, hs, (nameAt_iff_starts H A j).mpr hp, (frontBoundary_iff H j).mpr hf⟩
  refine ⟨hsound, ?_, by decide⟩
  intro hall
  cases hr : header_find_attribute H hlen A dec with
  | none => exact absurd hr (find_total H hlen A dec)
  | some r =>
    cases r with
    | none => rfl
    | some se =>
      obtain ⟨s, e⟩ := se
      obtain ⟨j, -, hn, hf⟩ := hsound s e hr
      obtain ⟨hpos, hne⟩ := hall j hn
      rcases hf with hf | hf
      · omega
      · exact absurd hf hne

/-- The text `ee=1.2.3` at the start of a header is no token of the form
`ee=<digits>[.<digits>]`. -/
theorem not_eeTokenAt_two_dots (rest : List Char) :
    ¬ eeTokenAt ("ee=1.2.3".toList ++ rest) 0 := by
  rintro ⟨-, -, k, hk, hd, hrest⟩
  have hk1 : k = 1 := by
    have : k ≤ 1 := charsAt_le hd (t := 1) (by
      intro c hc
      simp at hc
      subst hc
      unfold isDigitChar
      decide)
    omega
  subst hk1
  rcases hrest with hend | ⟨-, m, hm, hd2, hend⟩
  · rcases hend with h | h
    · simp at h
    · simp at h
  · have hm1 : m = 1 := by
      have : m ≤ 1 := charsAt_le hd2 (t := 1) (by
        intro c hc
        simp at hc
        subst hc
        unfold isDigitChar
        decide)
      omega
    subst hm1
    rcases hend with h | h
    · simp at h
    · simp at h

/-- C3 as stated fails for `ee=`: on `ee=1.2.3;ee=5` the call returns true
with `start = 0`, but no token of the form `ee=<digits>[.<digits>]` begins at
offset 0; the only one begins at offset 9. -/
theorem C3_counterexample :
    header_find_attribute "ee=1.2.3;ee=5".toList 13 "ee=".toList true = some (some (0, 8)) ∧
      ¬ eeTokenAt "ee=1.2.3;ee=5".toList 0 ∧
      eeTokenAt "ee=1.2.3;ee=5".toList 9 ∧
      (∀ j, eeTokenAt "ee=1.2.3;ee=5".toList j → j = 9) := by
  refine ⟨by decide, not_eeTokenAt_two_dots ";ee=5".toList, ?_, ?_⟩
  · refine ⟨by unfold nameAt; decide, Or.inr (by decide), 1, by decide, ?_,
      Or.inl (Or.inl (by decide))⟩
    intro t ht
    have : t = 0 := by omega
    subst this
    exact ⟨'5', by decide, by unfold isDigitChar; decide⟩
  · intro j hj
    have hacc := (tokenAt_iff_acceptsAt _ _ _ _).mp (eeTokenAt_tokenAt hj)
    have hlt : j < 13 := by
      have := (acceptsAt_bound hacc).2
      simp at this
      omega
    interval_cases j
    all_goals first
      | rfl
      | exact absurd hacc (by decide)
      | exact absurd hj (not_eeTokenAt_two_dots ";ee=5".toList)

/-- C3, amended. On a header whose length is its text length and for the
attribute `size=` or `ee=`: a true result of `header_find_attribute` has as
`start` the smallest offset at which a token as the code recognises it begins
(the name at start-of-header or behind `;`, one or more allowed value
characters in any arrangement, then `;` or end-of-header), and `end` is
`start` plus the length of the name plus the length of the maximal run of
allowed value characters.  For `size=` without decimals that token is the
valid size token and no valid size token starts earlier; for `ee=` with
decimals no token `ee=<digits>[.<digits>]` starts earlier. -/
theorem C3_first_token_whole_range (H A : List Char) (dec : Bool)
    (hA : A = "size=".toList ∨ A = "ee=".toList) (s e : Int)
    (h : header_find_attribute H H.length A dec = some (some (s, e))) :
    ∃ j k : Nat, s = (j : Int) ∧ tokenAt H A dec j ∧ (∀ j', j' < j → ¬ tokenAt H A dec j') ∧
      0 < k ∧ charsAt (isValueChar dec) H (j + A.length) k ∧
      (∀ c, H[j + A.length + k]? = some c → ¬ isValueChar dec c) ∧
      e = ((j + A.length + k : Nat) : Int) ∧
      (A = "size=".toList → dec = false →
        sizeTokenAt H j ∧ ∀ j', j' < j → ¬ sizeTokenAt H j') ∧
      (A = "ee=".toList → dec = true → ∀ j', j' < j → ¬ eeTokenAt H j') := by
  have hsep : ';' ∉ A := by
    rcases hA with hA | hA <;> subst hA <;> decide
  rcases find_token_spec H A dec hsep with ⟨j, ht, hfirst, hres⟩ | ⟨-, hres⟩
  · rw [hres] at h
    simp only [Option.some.injEq, Prod.mk.injEq] at h
    have hacc := (tokenAt_iff_acceptsAt H A dec j).mp ht
    refine ⟨j, runLen H A dec j, h.1.symm, ht, hfirst, hacc.2.2.1, runLen_chars H A dec j,
      runLen_stop H A dec j, h.2.symm, ?_, ?_⟩
    · intro hAs hd
      subst hAs; subst hd
      refine ⟨(sizeTokenAt_iff_tokenAt H j).mpr ht, ?_⟩
      intro j' hj' hs
      exact hfirst j' hj' ((sizeTokenAt_iff_tokenAt H j').mp hs)
    · intro hAe hd
      subst hAe; subst hd
      intro j' hj' he
      exact hfirst j' hj' (eeTokenAt_tokenAt he)
  · rw [hres] at h; simp at h

/-- Witness of C3: three rejected candidates stand before the token. -/
theorem C3_first_token_whole_range_witness :
    ∃ j k : Nat, (22 : Int) = (j : Int) ∧
      tokenAt "xsize=5;size=;size=1x;size=12;size=3".toList "size=".toList false j ∧
      (∀ j', j' < j →
        ¬ tokenAt "xsize=5;size=;size=1x;size=12;size=3".toList "size=".toList false j') ∧
      0 < k ∧
      charsAt (isValueChar false) "xsize=5;size=;size=1x;size=12;size=3".toList
        (j + "size=".toList.length) k ∧
      (∀ c, "xsize=5;size=;size=1x;size=12;size=3".toList[j + "size=".toList.length + k]? = some c →
        ¬ isValueChar false c) ∧
      (29 : Int) = ((j + "size=".toList.length + k : Nat) : Int) ∧
      ("size=".toList = "size=".toList → false = false →
        sizeTokenAt "xsize=5;size=;size=1x;size=12;size=3".toList j ∧
          ∀ j', j' < j → ¬ sizeTokenAt "xsize=5;size=;size=1x;size=12;size=3".toList j') ∧
      ("size=".toList = "ee=".toList → false = true →
        ∀ j', j' < j → ¬ eeTokenAt "xsize=5;size=;size=1x;size=12;size=3".toList j') :=
  C3_first_token_whole_range "xsize=5;size=;size=1x;size=12;size=3".toList "size=".toList false
    (Or.inl rfl) 22 29 (by decide)

/-- C4 as stated fails: for `ee=1.2.3` the code returns true, but the header
holds no token of the form `ee=<digits>[.<digits>]`. -/
theorem C4_counterexample :
    ¬ ((∃ r, header_find_attribute "ee=1.2.3".toList 8 "ee=".toList true = some (some r)) ↔
        ∃ j, eeTokenAt "ee=1.2.3".toList j) := by
  intro hiff
  have hfound : ∃ r, header_find_attribute "ee=1.2.3".toList 8 "ee=".toList true
      = some (some r) := ⟨(0, 8), by decide⟩
  obtain ⟨j, hj⟩ := hiff.mp hfound
  have hb := acceptsAt_bound ((tokenAt_iff_acceptsAt _ _ _ _).mp (eeTokenAt_tokenAt hj))
  obtain ⟨hn, -, k, hk, hd, hrest⟩ := hj
  have hj0 : j = 0 := by
    have hlt : j < 5 := by
      have := hb.2
      simp at this
      omega
    unfold nameAt at hn
    interval_cases j
    · rfl
    all_goals (revert hn; decide)
  subst hj0
  have hk1 : k = 1 := by
    have : k ≤ 1 := charsAt_le hd (t := 1) (by
      intro c hc
      simp at hc
      subst hc
      unfold isDigitChar
      decide)
    omega
  subst hk1
  rcases hrest with hend | ⟨-, m, hm, hd2, hend⟩
  · revert hend; unfold endBoundary; decide
  · have hm1 : m = 1 := by
      have : m ≤ 1 := charsAt_le hd2 (t := 1) (by
        intro c hc
        simp at hc
        subst hc
        unfold isDigitChar
        decide)
      omega
    subst hm1
    revert hend; unfold endBoundary; decide

/-- C4, amended. On a header whose length is its text length,
`header_find_attribute` for `ee=` with decimals allowed returns true exactly
when the header contains `ee=` at start-of-header or behind `;`, followed by
one or more characters each of which is a digit or `.`, followed by `;` or
end-of-header; it returns false exactly when there is no such token. -/
theorem C4_ee_found_iff_value_run (H : List Char) :
    ((∃ r, header_find_attribute H H.length "ee=".toList true = some (some r)) ↔
        ∃ j, tokenAt H "ee=".toList true j) ∧
      (header_find_attribute H H.length "ee=".toList true = some none ↔
        ¬ ∃ j, tokenAt H "ee=".toList true j) := by
  rcases find_token_spec H "ee=".toList true sep_not_mem_ee with
    ⟨j, ht, -, hres⟩ | ⟨hno, hres⟩
  · rw [hres]
    refine ⟨⟨fun _ => ⟨j, ht⟩, fun _ => ⟨_, rfl⟩⟩, ⟨fun h => by simp at h, fun h => ?_⟩⟩
    exact absurd ⟨j, ht⟩ h
  · rw [hres]
    refine ⟨⟨fun h => ?_, fun h => ?_⟩, ⟨fun _ => ?_, fun _ => rfl⟩⟩
    · obtain ⟨r, hr⟩ := h; simp at hr
    · obtain ⟨j, hj⟩ := h; exact absurd hj (hno j)
    · rintro ⟨j, hj⟩; exact hno j hj

/-! ## Decimal numerals -/

theorem decimalValue_append_singleton (l : List Char) (c : Char) :
    decimalValue (l ++ [c]) = 10 * decimalValue l + digitValue c := by
  simp [decimalValue, List.foldl_append]

theorem digitChar_isDigit (m : Nat) (hm : m < 10) :
    (Nat.digitChar m).isDigit = true ∧ digitValue (Nat.digitChar m) = m := by
  interval_cases m <;> exact ⟨by decide, by decide⟩

theorem toDigitsCore_spec :
    ∀ (fuel n : Nat) (ds : List Char), n < fuel →
      ∃ L, Nat.toDigitsCore 10 fuel n ds = L ++ ds ∧ L ≠ [] ∧ decimalValue L = n ∧
        ∀ c ∈ L, c.isDigit = true := by
  intro fuel
  induction fuel with
  | zero => intro n ds h; omega
  | succ fuel ih =>
    intro n ds h
    have hd := digitChar_isDigit (n % 10) (Nat.mod_lt _ (by decide))
    rw [Nat.toDigitsCore]
    by_cases h0 : n / 10 = 0
    · simp only [h0, if_true]
      refine ⟨[Nat.digitChar (n % 10)], rfl, by simp, ?_, ?_⟩
      · simp only [decimalValue, List.foldl_cons, List.foldl_nil, Nat.mul_zero, Nat.zero_add]
        rw [hd.2]; omega
      · intro c hc
        simp only [List.mem_singleton] at hc
        rw [hc]; exact hd.1
    · simp only [h0, if_false]
      obtain ⟨L, hL, hne, hval, hdig⟩ := ih (n / 10) (Nat.digitChar (n % 10) :: ds) (by omega)
      refine ⟨L ++ [Nat.digitChar (n % 10)], by rw [hL]; simp, by simp, ?_, ?_⟩
      · rw [decimalValue_append_singleton, hval, hd.2]; omega
      · intro c hc
        rcases List.mem_append.mp hc with hc | hc
        · exact hdig c hc
        · simp only [List.mem_singleton] at hc
          rw [hc]; exact hd.1

/-- The decimal numeral of `n` is a non-empty string of digits whose value is
`n`. -/
theorem repr_spec (n : Nat) :
    (Nat.repr n).toList ≠ [] ∧ decimalValue (Nat.repr n).toList = n ∧
      ∀ c ∈ (Nat.repr n).toList, c.isDigit = true := by
  obtain ⟨L, hL, hne, hval, hdig⟩ := toDigitsCore_spec (n + 1) n [] (by omega)
  have e : (Nat.repr n).toList = L := by
    simp only [Nat.repr, Nat.toDigits, hL, List.append_nil, List.asString, String.toList]
  rw [e]
  exact ⟨hne, hval, hdig⟩

/-! ## `atol` on a string that starts with a digit -/

theorem isDigit_not_special {c : Char} (h : c.isDigit = true) :
    isspace c = false ∧ c ≠ '-' ∧ c ≠ '+' ∧ c ≠ ';' := by
  have hm := (isDigit_iff_mem c).mp h
  simp only [digit_chars, String.toList, List.mem_cons, List.mem_nil_iff, or_false] at hm
  rcases hm with h | h | h | h | h | h | h | h | h | h <;> subst h <;> decide

theorem atol_digit_head (c : Char) (t : List Char) (h : c.isDigit = true) :
    atol (c :: t) =
      if (decimalValue ((c :: t).takeWhile Char.isDigit) : Int) > LONG_MAX then LONG_MAX
      else (decimalValue ((c :: t).takeWhile Char.isDigit) : Int) := by
  obtain ⟨h1, h2, h3, -⟩ := isDigit_not_special h
  unfold atol
  have hdw : (c :: t).dropWhile isspace = c :: t := by
    rw [List.dropWhile_cons, h1]; simp
  simp only [hdw]
  have hm : readSign (c :: t) = (false, c :: t) := by
    unfold readSign
    split
    · rename_i heq
      simp only [List.cons.injEq] at heq
      exact absurd heq.1 h2
    · rename_i heq
      simp only [List.cons.injEq] at heq
      exact absurd heq.1 h3
    · rfl
  rw [hm]
  simp only [Bool.false_eq_true, if_false]
  split
  · rfl
  · rw [if_neg]
    have : (0 : Int) ≤ (decimalValue ((c :: t).takeWhile Char.isDigit) : Int) :=
      Int.ofNat_nonneg _
    unfold LONG_MIN
    omega

theorem contains_digit_chars_eq : (fun c => digit_chars.contains c) = Char.isDigit := by
  funext c
  rw [Bool.eq_iff_iff, List.elem_iff, isDigit_iff_mem]

theorem takeWhile_eq_take {α : Type} (p : α → Bool) (l : List α) :
    l.takeWhile p = l.take (l.takeWhile p).length :=
  List.prefix_iff_eq_take.mp ( List.takeWhile_prefix p)

/-- The digits that `atol` reads behind `size=` are the value run of the
candidate. -/
theorem takeWhile_isDigit_run (H : List Char) (j : Nat) :
    (H.drop (j + 5)).takeWhile Char.isDigit =
      (H.drop (j + 5)).take (runLen H "size=".toList false j) := by
  have e : runLen H "size=".toList false j = ((H.drop (j + 5)).takeWhile Char.isDigit).length := by
    unfold runLen strspn allowed
    simp only [Bool.false_eq_true, if_false]
    rw [contains_digit_chars_eq]
    rfl
  rw [e]
  exact takeWhile_eq_take _ _

theorem decimalValue_foldl_zero (l : List Char) (hl : ∀ c ∈ l, c.isDigit = true) :
    ∀ acc : Nat, l.foldl (fun a c => 10 * a + digitValue c) acc = 0 ↔
      acc = 0 ∧ ∀ c ∈ l, c = '0' := by
  induction l with
  | nil => intro acc; simp
  | cons a l ih =>
    intro acc
    have ha := hl a (List.mem_cons_self a l)
    have h48 : 48 ≤ a.toNat ∧ a.toNat ≤ 57 := by
      simp only [Char.isDigit, Bool.and_eq_true, decide_eq_true_eq] at ha
      exact ha
    have h0 : digitValue a = 0 ↔ a = '0' := by
      rw [char_eq_iff_toNat]
      have : ('0' : Char).toNat = 48 := rfl
      rw [this]; unfold digitValue; omega
    rw [List.foldl_cons, ih (fun c hc => hl c (List.mem_cons_of_mem a hc))]
    simp only [List.mem_cons, forall_eq_or_imp]
    constructor
    · rintro ⟨h1, h2⟩
      exact ⟨by omega, h0.mp (by omega), h2⟩
    · rintro ⟨h1, h2, h3⟩
      exact ⟨by rw [h1, h0.mpr h2], h3⟩

theorem decimalValue_eq_zero (l : List Char) (hl : ∀ c ∈ l, c.isDigit = true) :
    decimalValue l = 0 ↔ ∀ c ∈ l, c = '0' := by
  unfold decimalValue
  rw [decimalValue_foldl_zero l hl 0]
  simp

/-! ## `header_get_size` -/

/-- The value run of the candidate at offset `j`, as a string. -/
theorem run_getElem? (H : List Char) (a k t : Nat) (ht : t < k) :
    ((H.drop a).take k)[t]? = H[a + t]? := by
  rw [List.getElem?_take_of_lt ht, List.getElem?_drop]

theorem mem_run_iff (H : List Char) (a k : Nat) (c : Char) :
    c ∈ (H.drop a).take k ↔ ∃ t, t < k ∧ H[a + t]? = some c := by
  rw [List.mem_iff_getElem?]
  constructor
  · rintro ⟨t, ht⟩
    have hlt : t < k := by
      by_contra hge
      have hlen : ((H.drop a).take k).length ≤ t := by
        have := List.length_take_le k (H.drop a)
        omega
      rw [List.getElem?_eq_none hlen] at ht
      cases ht
    rw [run_getElem? H a k t hlt] at ht
    exact ⟨t, hlt, ht⟩
  · rintro ⟨t, ht, hc⟩
    exact ⟨t, by rw [run_getElem? H a k t ht]; exact hc⟩

/-- Result of `header_get_size` once `header_find_attribute` has returned the
candidate at offset `j`. -/
theorem get_size_of_found {H : List Char} {j : Nat} {e : Int}
    (hf : header_find_attribute H H.length "size=".toList false = some (some ((j : Int), e)))
    (hr : 0 < runLen H "size=".toList false j) :
    header_get_size H H.length =
      if decimalValue ((H.drop (j + 5)).take (runLen H "size=".toList false j)) = 0 then
        some (Except.error zeroAbundanceMessage)
      else if (decimalValue ((H.drop (j + 5)).take (runLen H "size=".toList false j)) : Int)
          > LONG_MAX then some (Except.ok LONG_MAX)
      else some (Except.ok
        (decimalValue ((H.drop (j + 5)).take (runLen H "size=".toList false j)) : Int)) := by
  unfold header_get_size
  rw [hf]
  simp only []
  have e5 : ((j : Int) + 5).toNat = j + 5 := by omega
  rw [e5]
  obtain ⟨c, hc, hm⟩ := strspn_mem _ _ 0 hr
  have hlen5 : "size=".toList.length = 5 := rfl
  rw [hlen5] at hc
  have hdig : c.isDigit = true := by
    rw [isDigit_iff_mem]
    simpa [allowed] using hm
  cases hd : H.drop (j + 5) with
  | nil => rw [hd] at hc; simp at hc
  | cons a t =>
    rw [hd] at hc
    simp only [List.getElem?_cons_zero, Option.some.injEq] at hc
    subst hc
    rw [atol_digit_head a t hdig, ← hd, takeWhile_isDigit_run]
    generalize decimalValue ((H.drop (j + 5)).take (runLen H "size=".toList false j)) = v
    by_cases hv : v = 0
    · subst hv
      simp [LONG_MAX, fatal, zeroAbundanceMessage]
    · rw [if_neg hv]
      by_cases hbig : (v : Int) > LONG_MAX
      · rw [if_pos hbig, if_pos hbig]
        simp [LONG_MAX]
      · rw [if_neg hbig, if_neg hbig]
        have : (v : Int) > 0 := by omega
        rw [if_pos this]

theorem get_size_of_none {H : List Char}
    (hf : header_find_attribute H H.length "size=".toList false = some none) :
    header_get_size H H.length = some (Except.ok 0) := by
  unfold header_get_size
  rw [hf]

/-- The run behind a size token is made of digits. -/
theorem size_run_digits (H : List Char) (j : Nat) :
    ∀ c ∈ (H.drop (j + 5)).take (runLen H "size=".toList false j), c.isDigit = true := by
  intro c hc
  obtain ⟨t, ht, hget⟩ := (mem_run_iff H (j + 5) _ c).mp hc
  obtain ⟨c', hc', hv⟩ := runLen_chars H "size=".toList false j t ht
  have hlen5 : "size=".toList.length = 5 := rfl
  rw [hlen5, hget] at hc'
  cases hc'
  rcases hv with hv | hv
  · exact hv
  · exact absurd hv.1 (by decide)

theorem getElem?_append_add (l1 l2 : List Char) (t : Nat) :
    (l1 ++ l2)[l1.length + t]? = l2[t]? := by
  rw [List.getElem?_append_right (by omega)]
  congr 1
  omega

/-- A name followed by a non-empty string of value characters, standing
between proper boundaries, is a token, and its value is the run measured by the
code. -/
theorem tokenAt_of_parts (pre A v post : List Char) (dec : Bool)
    (hpre : pre = [] ∨ pre.getLast? = some ';') (hv : v ≠ [])
    (hval : ∀ c ∈ v, isValueChar dec c) (hpost : post = [] ∨ post.head? = some ';') :
    tokenAt (pre ++ A ++ v ++ post) A dec pre.length ∧
      runLen (pre ++ A ++ v ++ post) A dec pre.length = v.length := by
  have hch : charsAt (isValueChar dec) (pre ++ A ++ v ++ post) (pre.length + A.length)
      v.length := by
    intro t ht
    refine ⟨v[t], ?_, hval _ (List.getElem_mem _)⟩
    have e : pre ++ A ++ v ++ post = (pre ++ A) ++ (v ++ post) := by simp
    have e2 : pre.length + A.length = (pre ++ A).length := by simp
    rw [e, e2, getElem?_append_add, List.getElem?_append_left ht, List.getElem?_eq_getElem ht]
  have hend : endBoundary (pre ++ A ++ v ++ post) (pre.length + A.length + v.length) := by
    rcases hpost with hpost | hpost
    · left; subst hpost; simp; omega
    · right
      have e2 : pre.length + A.length + v.length = (pre ++ A ++ v).length + 0 := by
        simp; omega
      rw [e2, getElem?_append_add]
      cases post with
      | nil => simp at hpost
      | cons a t => simpa using hpost
  refine ⟨⟨?_, ?_, v.length, List.length_pos.mpr hv, hch, hend⟩, runLen_eq_of_chars hch hend⟩
  · unfold nameAt
    have e : pre ++ A ++ v ++ post = pre ++ (A ++ (v ++ post)) := by simp
    rw [e, List.drop_left, List.take_left]
  · rcases hpre with hpre | hpre
    · left; subst hpre; rfl
    · right
      have hne : pre ≠ [] := by
        rintro rfl
        simp at hpre
      have hpos : 0 < pre.length := List.length_pos.mpr hne
      have e : pre ++ A ++ v ++ post = pre ++ (A ++ v ++ post) := by simp
      rw [e, List.getElem?_append_left (by omega), ← List.getLast?_eq_getElem?]
      exact hpre

/-- Two first tokens of a header coincide. -/
theorem first_unique {P : Nat → Prop} {a b : Nat} (ha : P a) (hb : P b)
    (hfa : ∀ j, j < a → ¬ P j) (hfb : ∀ j, j < b → ¬ P j) : a = b := by
  rcases Nat.lt_trichotomy a b with h | h | h
  · exact absurd ha (hfb a h)
  · exact h
  · exact absurd hb (hfa b h)

/-- A size token lies inside the text and passes the tests of the loop
body. -/
theorem sizeTokenAt_accepts {H : List Char} {j : Nat} (h : sizeTokenAt H j) :
    j < H.length ∧ acceptsAt H H.length "size=".toList false j := by
  have hacc := (tokenAt_iff_acceptsAt H _ false j).mp ((sizeTokenAt_iff_tokenAt H j).mp h)
  have := (acceptsAt_bound hacc).2
  exact ⟨by omega, hacc⟩

/-- C5. Round trip: for `1 <= N < 2^63` and a header (length = text length)
whose only valid size token is `size=N`, with `N` written in decimal, preceded
by start-of-header or `;` and followed by `;` or end-of-header,
`header_get_size` returns `N` and raises no error. -/
theorem C5_size_round_trip (N : Nat) (pre post : List Char) (h1 : 1 ≤ N) (h2 : N < 2 ^ 63)
    (hpre : pre = [] ∨ pre.getLast? = some ';') (hpost : post = [] ∨ post.head? = some ';')
    (hsingle : ∀ j, sizeTokenAt (pre ++ "size=".toList ++ (Nat.repr N).toList ++ post) j →
      j = pre.length) :
    header_get_size (pre ++ "size=".toList ++ (Nat.repr N).toList ++ post)
      ((pre ++ "size=".toList ++ (Nat.repr N).toList ++ post).length) =
      some (Except.ok (N : Int)) := by
  obtain ⟨hne, hval, hdig⟩ := repr_spec N
  obtain ⟨htok, hrun⟩ := tokenAt_of_parts pre "size=".toList (Nat.repr N).toList post false hpre
    hne (fun c hc => Or.inl (hdig c hc)) hpost
  generalize hH : pre ++ "size=".toList ++ (Nat.repr N).toList ++ post = H at *
  rcases find_token_spec H "size=".toList false sep_not_mem_size with
    ⟨j, ht, -, hres⟩ | ⟨hno, -⟩
  · have hj : j = pre.length := hsingle j ((sizeTokenAt_iff_tokenAt H j).mpr ht)
    subst hj
    rw [get_size_of_found hres (by rw [hrun]; exact List.length_pos.mpr hne), hrun]
    have hdrop : (H.drop (pre.length + 5)).take (Nat.repr N).toList.length
        = (Nat.repr N).toList := by
      have e : H = (pre ++ "size=".toList) ++ ((Nat.repr N).toList ++ post) := by
        rw [← hH]; simp
      have e2 : pre.length + 5 = (pre ++ "size=".toList).length := by simp
      rw [e, e2, List.drop_left, List.take_left]
    rw [hdrop, hval]
    have hmax : ¬ ((N : Int) > LONG_MAX) := by
      unfold LONG_MAX
      have : (N : Int) < 2 ^ 63 := by exact_mod_cast h2
      omega
    rw [if_neg (by omega), if_neg hmax]
  · exact absurd htok (hno _)

/-- Witness of C5: the header `seq1;size=7;ee=0.5` reads as abundance 7. -/
theorem C5_size_round_trip_witness :
    header_get_size ("seq1;".toList ++ "size=".toList ++ (Nat.repr 7).toList ++ ";ee=0.5".toList)
      (("seq1;".toList ++ "size=".toList ++ (Nat.repr 7).toList ++ ";ee=0.5".toList).length) =
      some (Except.ok ((7 : Nat) : Int)) :=
  C5_size_round_trip 7 "seq1;".toList ";ee=0.5".toList (by decide) (by decide) (Or.inr rfl)
    (Or.inr rfl) (by
      intro j hj
      obtain ⟨hlt, hacc⟩ := sizeTokenAt_accepts hj
      have hlt18 : j < 18 := hlt
      interval_cases j
      all_goals first
        | rfl
        | exact absurd hacc (by decide))

/-- C6. On a header whose length is its text length: when the value run of
the first valid size token consists of `0` characters only, `header_get_size`
ends in the fatal error `Invalid (zero) abundance annotation`; and every
failure of `header_get_size` is of that kind. -/
theorem C6_zero_abundance_fatal (H : List Char) :
    (firstSizeTokenZero H →
        header_get_size H H.length = some (Except.error zeroAbundanceMessage)) ∧
      (∀ msg, header_get_size H H.length = some (Except.error msg) → firstSizeTokenZero H) ∧
      zeroAbundanceMessage = "Invalid (zero) abundance annotation in FASTA file header" := by
  refine ⟨?_, ?_, rfl⟩
  · rintro ⟨j, htok, hfirst, k, hk, hzero, hend⟩
    simp only [sizeTokenAt_iff_tokenAt] at htok hfirst
    have hrun : runLen H "size=".toList false j = k := by
      apply runLen_eq_of_chars _ hend
      intro t ht
      obtain ⟨c, hc, h0⟩ := hzero t ht
      exact ⟨c, hc, Or.inl (by rw [h0]; decide)⟩
    rcases find_token_spec H "size=".toList false sep_not_mem_size with
      ⟨j0, ht0, hfirst0, hres⟩ | ⟨hno, -⟩
    · have hj : j0 = j := first_unique ht0 htok hfirst0 hfirst
      subst hj
      rw [get_size_of_found hres (by omega), hrun, if_pos]
      rw [decimalValue_eq_zero _ (by rw [← hrun]; exact size_run_digits H j0)]
      intro c hc
      obtain ⟨t, ht, hget⟩ := (mem_run_iff H (j0 + 5) k c).mp hc
      obtain ⟨c', hc', h0⟩ := hzero t ht
      rw [hget] at hc'
      cases hc'
      exact h0
    · exact absurd htok (hno j)
  · intro msg hmsg
    rcases find_token_spec H "size=".toList false sep_not_mem_size with
      ⟨j, ht, hfirst, hres⟩ | ⟨-, hres⟩
    · have hacc := (tokenAt_iff_acceptsAt H _ false j).mp ht
      rw [get_size_of_found hres hacc.2.2.1] at hmsg
      split at hmsg
      · rename_i hz
        rw [decimalValue_eq_zero _ (size_run_digits H j)] at hz
        refine ⟨j, (sizeTokenAt_iff_tokenAt H j).mpr ht, ?_, runLen H "size=".toList false j,
          hacc.2.2.1, ?_, ?_⟩
        · intro j' hj' h'
          exact hfirst j' hj' ((sizeTokenAt_iff_tokenAt H j').mp h')
        · intro t htlt
          obtain ⟨c, hc, -⟩ := runLen_chars H "size=".toList false j t htlt
          refine ⟨c, hc, hz c ((mem_run_iff H (j + 5) _ c).mpr ⟨t, htlt, hc⟩)⟩
        · obtain ⟨-, -, k, hk, hch, hend⟩ := ht
          rw [runLen_eq_of_chars hch hend]
          exact hend
      · split at hmsg <;> simp at hmsg
    · rw [get_size_of_none hres] at hmsg
      simp at hmsg

/-- C7. On a header whose length is its text length: without a valid size
token `header_get_size` returns the sentinel 0 and raises no error (as for a
wrong front boundary, no digits, a decimal value or a wrong terminator); with
a valid size token every value it returns is at least 1. -/
theorem C7_absent_size_is_none (H : List Char) :
    ((¬ ∃ j, sizeTokenAt H j) → header_get_size H H.length = some (Except.ok 0)) ∧
      ((∃ j, sizeTokenAt H j) → ∀ v, header_get_size H H.length = some (Except.ok v) → 1 ≤ v) ∧
      header_get_size "xsize=5;size=;size=1.5;size=2x".toList 30 = some (Except.ok 0) := by
  refine ⟨?_, ?_, rfl⟩
  · intro hno
    rcases find_token_spec H "size=".toList false sep_not_mem_size with
      ⟨j, ht, -, -⟩ | ⟨-, hres⟩
    · exact absurd ⟨j, (sizeTokenAt_iff_tokenAt H j).mpr ht⟩ hno
    · exact get_size_of_none hres
  · rintro ⟨j0, hj0⟩ v hv
    rcases find_token_spec H "size=".toList false sep_not_mem_size with
      ⟨j, ht, -, hres⟩ | ⟨hno, -⟩
    · have hacc := (tokenAt_iff_acceptsAt H _ false j).mp ht
      rw [get_size_of_found hres hacc.2.2.1] at hv
      split at hv
      · simp at hv
      · rename_i hz
        split at hv
        · simp only [Option.some.injEq, Except.ok.injEq] at hv
          rw [← hv]; decide
        · simp only [Option.some.injEq, Except.ok.injEq] at hv
          omega
    · exact absurd ((sizeTokenAt_iff_tokenAt H j0).mp hj0) (hno j0)

/-! ## The text written by `header_fprint_strip_size_ee` -/

theorem fprintf_s_natCast (k : Nat) (s : List Char) : fprintf_s (k : Int) s = s.take k := by
  unfold fprintf_s
  rw [if_neg (by omega)]
  simp

theorem fprint_unfold (H : List Char) (hlen : Int) (ss se : Bool)
    (sf ef : Option (Int × Int)) (hs : sizeLookup H hlen ss = some sf)
    (he : eeLookup H hlen se = some ef) :
    header_fprint_strip_size_ee H hlen ss se =
      some (print_stripped H hlen (sort_attributes (sf.toList ++ ef.toList))) := by
  unfold header_fprint_strip_size_ee
  unfold sizeLookup at hs
  unfold eeLookup at he
  rw [hs, he]

theorem print_none (H : List Char) (hlen : Int) (h0 : 0 ≤ hlen) :
    print_stripped H hlen [] = H.take hlen.toNat := by
  unfold print_stripped fprintf_s
  simp only [List.length_nil, if_true]
  rw [if_neg (by omega)]

/-- Text written when one range is found. -/
theorem print_one (H : List Char) (j e : Nat) :
    print_stripped H H.length [((j : Int), (e : Int))] =
      H.take (j - 1) ++ (if e + 1 < H.length then H.drop e else []) := by
  unfold print_stripped
  simp only [List.length_singleton, one_ne_zero, if_false, List.foldl_cons, List.foldl_nil,
    print_step]
  have e1 : ((j : Int) > 0 + 1) ↔ 1 < j := by omega
  have e2 : (j : Int) - 0 - 1 = ((j - 1 : Nat) : Int) ∨ j = 0 := by omega
  have e3 : ((H.length : Int) > (e : Int) + 1) ↔ e + 1 < H.length := by omega
  simp only [e1, e3, Int.toNat_zero, List.drop_zero, List.nil_append, Int.toNat_ofNat]
  have hA : (if 1 < j then fprintf_s ((j : Int) - 0 - 1) H else []) = H.take (j - 1) := by
    by_cases h : 1 < j
    · rw [if_pos h]
      rcases e2 with e2 | e2
      · rw [e2, fprintf_s_natCast]
      · omega
    · rw [if_neg h]
      have : j - 1 = 0 := by omega
      rw [this]; rfl
  rw [hA]
  by_cases h : e + 1 < H.length
  · rw [if_pos h, if_pos h]
    have : (H.length : Int) - (e : Int) = ((H.length - e : Nat) : Int) := by omega
    rw [this, fprintf_s_natCast]
    congr 1
    apply List.take_of_length_le
    simp
  · rw [if_neg h, if_neg h]
    simp

/-- Text written when two ranges are found, the first ending before the second starts. -/
theorem print_two (H : List Char) (j1 e1 j2 e2 : Nat) (h12 : e1 < j2) :
    print_stripped H H.length [((j1 : Int), (e1 : Int)), ((j2 : Int), (e2 : Int))] =
      H.take (j1 - 1) ++ (H.drop e1).take (j2 - 1 - e1) ++
        (if e2 + 1 < H.length then H.drop e2 else []) := by
  unfold print_stripped
  simp only [List.length_cons, List.length_nil, List.foldl_cons, List.foldl_nil, print_step]
  have e1' : ((j1 : Int) > 0 + 1) ↔ 1 < j1 := by omega
  have e2' : (j1 : Int) - 0 - 1 = ((j1 - 1 : Nat) : Int) ∨ j1 = 0 := by omega
  have e3 : ((H.length : Int) > (e2 : Int) + 1) ↔ e2 + 1 < H.length := by omega
  have e4 : ((j2 : Int) > (e1 : Int) + 1) ↔ e1 + 1 < j2 := by omega
  have e5 : (j2 : Int) - (e1 : Int) - 1 = ((j2 - 1 - e1 : Nat) : Int) := by omega
  simp only [e1', e3, e4, e5, Int.toNat_zero, List.drop_zero, List.nil_append, Int.toNat_ofNat,
    fprintf_s_natCast]
  rw [if_neg (by omega)]
  have hA : (if 1 < j1 then fprintf_s ((j1 : Int) - 0 - 1) H else []) = H.take (j1 - 1) := by
    by_cases h : 1 < j1
    · rw [if_pos h]
      rcases e2' with e2' | e2'
      · rw [e2', fprintf_s_natCast]
      · omega
    · rw [if_neg h]
      have : j1 - 1 = 0 := by omega
      rw [this]; rfl
  have hB : (if e1 + 1 < j2 then H.take (j1 - 1) ++ (H.drop e1).take (j2 - 1 - e1)
      else H.take (j1 - 1)) = H.take (j1 - 1) ++ (H.drop e1).take (j2 - 1 - e1) := by
    by_cases h : e1 + 1 < j2
    · rw [if_pos h]
    · rw [if_neg h]
      have : j2 - 1 - e1 = 0 := by omega
      rw [this]; simp
  rw [hA, hB]
  by_cases h : e2 + 1 < H.length
  · rw [if_pos h, if_pos h]
    have : (H.length : Int) - (e2 : Int) = ((H.length - e2 : Nat) : Int) := by omega
    rw [this, fprintf_s_natCast]
    congr 1
    apply List.take_of_length_le
    simp
  · rw [if_neg h, if_neg h]
    simp

/-! ## Removing offsets from a text -/

theorem keepChars_append (rem : Nat → Bool) (l1 l2 : List Char) :
    ∀ p, keepChars rem p (l1 ++ l2) = keepChars rem p l1 ++ keepChars rem (p + l1.length) l2 := by
  induction l1 with
  | nil => intro p; simp [keepChars]
  | cons a l1 ih =>
    intro p
    have e : p + (a :: l1).length = p + 1 + l1.length := by simp; omega
    rw [e]
    simp only [List.cons_append, keepChars]
    split
    · exact ih (p + 1)
    · have := ih (p + 1)
      simp only [List.cons_append, List.cons.injEq, true_and]
      exact this

theorem keepChars_all_removed (rem : Nat → Bool) (l : List Char) :
    ∀ p, (∀ t, t < l.length → rem (p + t) = true) → keepChars rem p l = [] := by
  induction l with
  | nil => intro p _; rfl
  | cons a l ih =>
    intro p h
    have h0 : rem p = true := by simpa using h 0 (by simp)
    simp only [keepChars, h0, if_true]
    apply ih
    intro t ht
    have := h (t + 1) (by simp; omega)
    have e : p + 1 + t = p + (t + 1) := by omega
    rw [e]; exact this

theorem keepChars_none_removed (rem : Nat → Bool) (l : List Char) :
    ∀ p, (∀ t, t < l.length → rem (p + t) = false) → keepChars rem p l = l := by
  induction l with
  | nil => intro p _; rfl
  | cons a l ih =>
    intro p h
    have h0 : rem p = false := by simpa using h 0 (by simp)
    simp only [keepChars, h0, Bool.false_eq_true, if_false, List.cons.injEq, true_and]
    apply ih
    intro t ht
    have := h (t + 1) (by simp; omega)
    have e : p + 1 + t = p + (t + 1) := by omega
    rw [e]; exact this

/-- Removing the offsets `[p + a, p + b)` from a part that starts at offset
`p` and keeping the ones before. -/
theorem keepChars_cut (rem : Nat → Bool) (l : List Char) (p a b : Nat) (hab : a ≤ b)
    (hb : b ≤ l.length) (hkeep : ∀ t, t < a → rem (p + t) = false)
    (hrem : ∀ t, a ≤ t → t < b → rem (p + t) = true) :
    keepChars rem p l = l.take a ++ keepChars rem (p + b) (l.drop b) := by
  have e1 : l = l.take a ++ ((l.drop a).take (b - a) ++ l.drop b) := by
    have h1 : l.drop a = (l.drop a).take (b - a) ++ (l.drop a).drop (b - a) :=
      (List.take_append_drop _ _).symm
    have h2 : (l.drop a).drop (b - a) = l.drop b := by
      rw [List.drop_drop]; congr 1; omega
    rw [h2] at h1
    rw [← h1, List.take_append_drop]
  have la : (l.take a).length = a := by simp; omega
  have lm : ((l.drop a).take (b - a)).length = b - a := by simp; omega
  conv_lhs => rw [e1]
  rw [keepChars_append, keepChars_append, la, lm]
  rw [keepChars_none_removed rem (l.take a) p (by intro t ht; exact hkeep t (by omega))]
  rw [keepChars_all_removed rem _ (p + a) (by
    intro t ht
    have := hrem (a + t) (by omega) (by omega)
    have e : p + a + t = p + (a + t) := by omega
    rw [e]; exact this)]
  have e : p + a + (b - a) = p + b := by omega
  rw [e]; simp

/-- The text behind the last range: kept whole, except that a single
remaining character is removed. -/
theorem keepChars_tail (rem : Nat → Bool) (H : List Char) (e : Nat)
    (hkeep : e + 1 < H.length → ∀ p, e ≤ p → rem p = false)
    (hlast : e + 1 = H.length → rem e = true) :
    keepChars rem e (H.drop e) = if e + 1 < H.length then H.drop e else [] := by
  by_cases h : e + 1 < H.length
  · rw [if_pos h]
    apply keepChars_none_removed
    intro t _
    exact hkeep h _ (by omega)
  · rw [if_neg h]
    apply keepChars_all_removed
    intro t ht
    simp only [List.length_drop] at ht
    have : t = 0 := by omega
    subst this
    exact hlast (by omega)

theorem removed_nil (n : Int) (p : Nat) : removedByCode n [] p = false := by
  simp [removedByCode, removedClaimed]

theorem removed_one_iff (n : Int) (j e p : Nat) :
    removedByCode n [((j : Int), (e : Int))] p = true ↔
      ((((j : Int) ≤ p ∧ p < e) ∨ (0 < j ∧ (p : Int) = (j : Int) - 1)) ∨
        (p = e ∧ (e : Int) + 1 = n)) := by
  simp only [removedByCode, removedClaimed, List.any_cons, List.any_nil, Bool.or_false,
    Bool.or_eq_true, Bool.and_eq_true, decide_eq_true_eq]
  omega

theorem removed_two_iff (n : Int) (j1 e1 j2 e2 p : Nat) :
    removedByCode n [((j1 : Int), (e1 : Int)), ((j2 : Int), (e2 : Int))] p = true ↔
      (((((j1 : Int) ≤ p ∧ p < e1) ∨ (0 < j1 ∧ (p : Int) = (j1 : Int) - 1)) ∨
          (p = e1 ∧ (e1 : Int) + 1 = n)) ∨
        ((((j2 : Int) ≤ p ∧ p < e2) ∨ (0 < j2 ∧ (p : Int) = (j2 : Int) - 1)) ∨
          (p = e2 ∧ (e2 : Int) + 1 = n))) := by
  simp only [removedByCode, removedClaimed, List.any_cons, List.any_nil, Bool.or_false,
    Bool.or_eq_true, Bool.and_eq_true, decide_eq_true_eq]
  omega

/-- With one range found, the text written is the header without the
removed offsets. -/
theorem strip_one (H : List Char) (j e : Nat) (hje : j < e) (he : e ≤ H.length) :
    print_stripped H H.length [((j : Int), (e : Int))] =
      keepChars (removedByCode H.length [((j : Int), (e : Int))]) 0 H := by
  rw [print_one]
  have hrem := removed_one_iff H.length j e
  rw [keepChars_cut _ H 0 (j - 1) e (by omega) he
    (by
      intro t ht
      rw [Bool.eq_false_iff, Ne, hrem]
      omega)
    (by
      intro t h1 h2
      rw [hrem]
      omega)]
  rw [Nat.zero_add, keepChars_tail _ H e
    (by
      intro h p hp
      rw [Bool.eq_false_iff, Ne, hrem]
      omega)
    (by
      intro h
      rw [hrem]
      omega)]

/-- With two ranges found, the text written is the header without the
removed offsets. -/
theorem strip_two (H : List Char) (rem : Nat → Bool) (j1 e1 j2 e2 : Nat) (h1 : j1 < e1)
    (h12 : e1 < j2) (h2 : j2 < e2) (he : e2 ≤ H.length)
    (hrem : ∀ p : Nat, rem p = true ↔
      (((((j1 : Int) ≤ p ∧ p < e1) ∨ (0 < j1 ∧ (p : Int) = (j1 : Int) - 1)) ∨
          (p = e1 ∧ (e1 : Int) + 1 = H.length)) ∨
        ((((j2 : Int) ≤ p ∧ p < e2) ∨ (0 < j2 ∧ (p : Int) = (j2 : Int) - 1)) ∨
          (p = e2 ∧ (e2 : Int) + 1 = H.length)))) :
    print_stripped H H.length [((j1 : Int), (e1 : Int)), ((j2 : Int), (e2 : Int))] =
      keepChars rem 0 H := by
  rw [print_two H j1 e1 j2 e2 h12]
  rw [keepChars_cut rem H 0 (j1 - 1) e1 (by omega) (by omega)
    (by
      intro t ht
      rw [Bool.eq_false_iff, Ne, hrem]
      omega)
    (by
      intro t h1 h2
      rw [hrem]
      omega)]
  rw [Nat.zero_add, keepChars_cut rem (H.drop e1) e1 (j2 - 1 - e1) (e2 - e1) (by omega)
    (by rw [List.length_drop]; omega)
    (by
      intro t ht
      rw [Bool.eq_false_iff, Ne, hrem]
      omega)
    (by
      intro t h1 h2
      rw [hrem]
      omega)]
  have e' : (H.drop e1).drop (e2 - e1) = H.drop e2 := by
    rw [List.drop_drop]; congr 1; omega
  have e : e1 + (e2 - e1) = e2 := by omega
  rw [e, e', keepChars_tail rem H e2
    (by
      intro h p hp
      rw [Bool.eq_false_iff, Ne, hrem]
      omega)
    (by
      intro h
      rw [hrem]
      omega)]
  simp

/-- Two accepted candidates do not overlap: the later one starts behind the
terminator position of the earlier one. -/
theorem accepts_disjoint {H : List Char} {hlen : Int} {A B : List Char} {decA decB : Bool}
    {j1 j2 : Nat} (hA : ';' ∉ A) (h1 : acceptsAt H hlen A decA j1)
    (h2 : acceptsAt H hlen B decB j2) (hlt : j1 < j2) :
    j1 + A.length + runLen H A decA j1 < j2 := by
  by_contra hge
  by_cases hn : j2 ≤ j1 + A.length
  · exact no_accept_in_name hA h1.1 hlt hn h2
  · exact (@no_accept_in_run H hlen A B decA decB j1 j2 (by omega) (by omega)) h2

theorem size_ee_distinct {H : List Char} {hlen : Int} {d1 d2 : Bool} {j : Nat}
    (hs : acceptsAt H hlen "size=".toList d1 j) (he : acceptsAt H hlen "ee=".toList d2 j) :
    False := by
  have h1 := starts_drop_getElem? hs.1 (t := 0) (by decide)
  have h2 := starts_drop_getElem? he.1 (t := 0) (by decide)
  rw [h1] at h2
  revert h2
  decide

/-- Outcome of a lookup on a header whose length is its text length: nothing,
or the range of an accepted candidate. -/
theorem lookup_cases (H A : List Char) (dec : Bool) (hA : ';' ∉ A) (flag : Bool) :
    ∃ r, (if flag then header_find_attribute H H.length A dec else some none) = some r ∧
      (r = none ∨ ∃ j : Nat, r = some ((j : Int), ((j + A.length + runLen H A dec j : Nat) : Int)) ∧
        acceptsAt H H.length A dec j) := by
  cases flag with
  | false => exact ⟨none, rfl, Or.inl rfl⟩
  | true =>
    rcases find_spec H A dec hA with ⟨j, -, hacc, -, hres⟩ | ⟨-, hres⟩
    · exact ⟨_, hres, Or.inr ⟨j, rfl, hacc⟩⟩
    · exact ⟨none, hres, Or.inl rfl⟩

/-- C8 as stated fails: for `seq1;size=7;` the `;` behind the stripped
annotation is the last character of the header and is not written, although
it lies outside the range `[5, 11)` and is not the separator in front of it. -/
theorem C8_counterexample :
    header_find_attribute "seq1;size=7;".toList 12 "size=".toList false = some (some (5, 11)) ∧
      header_fprint_strip_size_ee "seq1;size=7;".toList 12 true false = some "seq1".toList ∧
      keepChars (removedClaimed [(5, 11)]) 0 "seq1;size=7;".toList = "seq1;".toList ∧
      header_fprint_strip_size_ee "seq1;size=7;".toList 12 true false ≠
        some (keepChars (removedClaimed [(5, 11)]) 0 "seq1;size=7;".toList) := by
  refine ⟨by decide, by decide, by decide, by decide⟩

/-- C8, amended. On a header whose length is its text length and for every
combination of the two flags, the text written by
`header_fprint_strip_size_ee` is the header without the offsets of the found
ranges `[start, end)`, without the separator offset `start - 1` of each range
with `start > 0`, and without the last offset of the header when a found range
ends exactly there; all other characters are written in their original
order. -/
theorem C8_stripped_text (H : List Char) (strip_size strip_ee : Bool) :
    ∃ size_found ee_found,
      sizeLookup H H.length strip_size = some size_found ∧
      eeLookup H H.length strip_ee = some ee_found ∧
      header_fprint_strip_size_ee H H.length strip_size strip_ee =
        some (keepChars (removedByCode H.length (size_found.toList ++ ee_found.toList)) 0 H) := by
  obtain ⟨sf, hsf, hs⟩ := lookup_cases H "size=".toList false sep_not_mem_size strip_size
  obtain ⟨ef, hef, he⟩ := lookup_cases H "ee=".toList true sep_not_mem_ee strip_ee
  refine ⟨sf, ef, hsf, hef, ?_⟩
  rw [fprint_unfold H H.length strip_size strip_ee sf ef hsf hef]
  congr 1
  rcases hs with hs | ⟨js, hs, hsacc⟩ <;> rcases he with he | ⟨je, he, heacc⟩
  · subst hs; subst he
    simp only [Option.toList, List.append_nil, sort_attributes]
    rw [print_none H H.length (by omega)]
    simp only [Int.toNat_ofNat, List.take_length]
    symm
    apply keepChars_none_removed
    intro t _
    exact removed_nil _ _
  · subst hs; subst he
    simp only [Option.toList, List.nil_append, sort_attributes]
    have hb := acceptsAt_bound heacc
    exact strip_one H je _ (by have := heacc.2.2.1; omega) hb.1
  · subst hs; subst he
    simp only [Option.toList, List.append_nil, sort_attributes]
    have hb := acceptsAt_bound hsacc
    exact strip_one H js _ (by have := hsacc.2.2.1; omega) hb.1
  · subst hs; subst he
    have hbs := acceptsAt_bound hsacc
    have hbe := acceptsAt_bound heacc
    have hrs := hsacc.2.2.1
    have hre := heacc.2.2.1
    simp only [Option.toList, List.singleton_append, sort_attributes]
    rcases Nat.lt_trichotomy js je with hlt | heq | hgt
    · have hd := accepts_disjoint sep_not_mem_size hsacc heacc hlt
      rw [if_neg (by omega)]
      exact strip_two H _ js _ je _ (by omega) hd (by omega) hbe.1 (removed_two_iff _ _ _ _ _)
    · subst heq
      exact absurd heacc (fun h => size_ee_distinct hsacc h)
    · have hd := accepts_disjoint sep_not_mem_ee heacc hsacc hgt
      rw [if_pos (by omega)]
      refine strip_two H _ je _ js _ (by omega) hd (by omega) hbs.1 ?_
      intro p
      rw [removed_two_iff]
      exact or_comm

theorem nameAt_iff_getElem? (H B : List Char) (j : Nat) :
    nameAt H B j ↔ ∀ t, t < B.length → H[j + t]? = B[t]? := by
  constructor
  · intro h t ht
    exact starts_drop_getElem? ((nameAt_iff_starts H B j).mp h) ht
  · intro h
    unfold nameAt
    apply List.ext_getElem?
    intro n
    by_cases hn : n < B.length
    · rw [List.getElem?_take_of_lt hn, List.getElem?_drop]
      exact h n hn
    · rw [List.getElem?_eq_none (by omega : B.length ≤ n)]
      apply List.getElem?_eq_none
      have := List.length_take_le B.length (H.drop j)
      omega

/-- Characters of a text assembled from a part in front, a slice of the
header and a part behind. -/
theorem slice_getElem? (H U V : List Char) (a m : Nat) (ham : a + m ≤ H.length) (y : Nat)
    (hy : y < m) : (U ++ (H.drop a).take m ++ V)[U.length + y]? = H[a + y]? := by
  have hlen : ((H.drop a).take m).length = m := by simp; omega
  rw [List.append_assoc, getElem?_append_add, List.getElem?_append_left (by omega),
    run_getElem? H a m y hy]

theorem behind_slice_getElem? (H U V : List Char) (a m : Nat) (ham : a + m ≤ H.length) :
    (U ++ (H.drop a).take m ++ V)[U.length + m]? = V[0]? := by
  have hlen : ((H.drop a).take m).length = m := by simp; omega
  have e : U.length + m = (U ++ (H.drop a).take m).length + 0 := by simp [hlen]
  rw [e, getElem?_append_add]

/-- The characters of a token are not separators. -/
theorem token_char_not_sep {R B : List Char} {dec : Bool} {p k : Nat} (hB : ';' ∉ B)
    (hn : nameAt R B p) (hch : charsAt (isValueChar dec) R (p + B.length) k) (x : Nat)
    (h1 : p ≤ x) (h2 : x < p + B.length + k) : ∃ c, R[x]? = some c ∧ c ≠ ';' := by
  by_cases hx : x < p + B.length
  · have ht : x - p < B.length := by omega
    have := (nameAt_iff_getElem? R B p).mp hn (x - p) ht
    have e : p + (x - p) = x := by omega
    rw [e, List.getElem?_eq_getElem ht] at this
    refine ⟨_, this, ?_⟩
    intro hc
    exact hB (hc ▸ List.getElem_mem _)
  · obtain ⟨c, hc, hv⟩ := hch (x - (p + B.length)) (by omega)
    have e : p + B.length + (x - (p + B.length)) = x := by omega
    rw [e] at hc
    refine ⟨c, hc, ?_⟩
    intro h
    rw [h, isValueChar_iff_mem] at hv
    exact sep_not_mem_allowed dec hv

/-- A token of the assembled text that starts inside the slice is a token of
the header, at the corresponding offset. -/
theorem slice_token (H U V B : List Char) (dec : Bool) (a m : Nat) (hB : ';' ∉ B)
    (hBne : 0 < B.length) (ham : a + m ≤ H.length)
    (hleft : (U = [] ∧ a = 0) ∨ H[a]? = some ';')
    (hrightR : V = [] ∨ V[0]? = some ';')
    (hrightH : endBoundary H (a + m))
    (p : Nat) (hp1 : U.length ≤ p) (hp2 : p < U.length + m)
    (ht : tokenAt (U ++ (H.drop a).take m ++ V) B dec p) :
    tokenAt H B dec (a + (p - U.length)) := by
  obtain ⟨hn, hf, k, hk, hch, hend⟩ := ht
  have hnosep := token_char_not_sep hB hn hch
  -- the token ends inside the slice
  have hinside : p + B.length + k ≤ U.length + m := by
    by_contra hgt
    obtain ⟨c, hc, hne⟩ := hnosep (U.length + m) (by omega) (by omega)
    rw [behind_slice_getElem? H U V a m ham] at hc
    rcases hrightR with hV | hV
    · subst hV; simp at hc
    · rw [hV] at hc
      cases hc
      exact hne rfl
  have hget : ∀ x, U.length ≤ x → x < U.length + m →
      (U ++ (H.drop a).take m ++ V)[x]? = H[a + (x - U.length)]? := by
    intro x h1 h2
    have := slice_getElem? H U V a m ham (x - U.length) (by omega)
    have e : U.length + (x - U.length) = x := by omega
    rw [e] at this
    exact this
  refine ⟨?_, ?_, k, hk, ?_, ?_⟩
  · rw [nameAt_iff_getElem?]
    intro t htB
    have h1 := (nameAt_iff_getElem? _ B p).mp hn t htB
    rw [hget (p + t) (by omega) (by omega)] at h1
    have e : a + (p + t - U.length) = a + (p - U.length) + t := by omega
    rw [e] at h1
    exact h1
  · by_cases hq : p = U.length
    · obtain ⟨c, hc, hne⟩ := hnosep p (by omega) (by omega)
      rw [hget p (by omega) (by omega)] at hc
      have e : a + (p - U.length) = a := by omega
      rw [e] at hc
      rcases hleft with ⟨hU, ha⟩ | hsep
      · left; omega
      · rw [hsep] at hc
        cases hc
        exact absurd rfl hne
    · right
      rcases hf with hf | hf
      · omega
      · rw [hget (p - 1) (by omega) (by omega)] at hf
        have e : a + (p - 1 - U.length) = a + (p - U.length) - 1 := by omega
        rw [e] at hf
        exact hf
  · intro t htk
    obtain ⟨c, hc, hv⟩ := hch t htk
    rw [hget (p + B.length + t) (by omega) (by omega)] at hc
    have e : a + (p + B.length + t - U.length) = a + (p - U.length) + B.length + t := by omega
    rw [e] at hc
    exact ⟨c, hc, hv⟩
  · by_cases hlt : p + B.length + k < U.length + m
    · right
      have hlenR : U.length + m ≤ (U ++ (H.drop a).take m ++ V).length := by
        have hlen : ((H.drop a).take m).length = m := by simp; omega
        simp [hlen]
      rcases hend with hend | hend
      · omega
      · rw [hget (p + B.length + k) (by omega) hlt] at hend
        have e : a + (p + B.length + k - U.length) = a + (p - U.length) + B.length + k := by
          omega
        rw [e] at hend
        exact hend
    · have e : a + (p - U.length) + B.length + k = a + m := by omega
      rw [e]
      exact hrightH

theorem tokenAt_lt_length {R B : List Char} {dec : Bool} {p : Nat} (h : tokenAt R B dec p) :
    p < R.length := by
  have := (acceptsAt_bound ((tokenAt_iff_acceptsAt R B dec p).mp h)).2
  omega

theorem slice_head (H : List Char) (a m : Nat) (hm : 0 < m) :
    ((H.drop a).take m)[0]? = H[a]? := by
  have := run_getElem? H a m 0 hm
  simpa using this

/-- When both annotations are stripped, no token of a name is left whose
tokens in the header were the stripped ones only. -/
theorem no_token_in_stripped (H B : List Char) (dec : Bool) (hB : ';' ∉ B)
    (hBne : 0 < B.length) (j1 e1 j2 e2 : Nat) (h1 : j1 < e1) (h12 : e1 < j2) (h2 : j2 < e2)
    (he2 : e2 ≤ H.length) (hf1 : frontBoundary H j1) (hf2 : frontBoundary H j2)
    (hend1 : endBoundary H e1) (hend2 : endBoundary H e2)
    (huniq : ∀ j, tokenAt H B dec j → j = j1 ∨ j = j2) (p : Nat) :
    ¬ tokenAt (H.take (j1 - 1) ++ (H.drop e1).take (j2 - 1 - e1) ++
      (if e2 + 1 < H.length then H.drop e2 else [])) B dec p := by
  intro ht
  have hplt := tokenAt_lt_length ht
  have hsep1 : H[e1]? = some ';' := by
    rcases hend1 with h | h
    · omega
    · exact h
  have hsep2 : H[j2 - 1]? = some ';' := by
    rcases hf2 with h | h
    · omega
    · exact h
  have l0 : (H.take (j1 - 1)).length = j1 - 1 := by simp; omega
  have l1 : ((H.drop e1).take (j2 - 1 - e1)).length = j2 - 1 - e1 := by simp; omega
  -- the text behind the middle slice starts with a separator
  have htail : ∀ T : List Char, T = (if e2 + 1 < H.length then H.drop e2 else []) →
      T = [] ∨ T[0]? = some ';' := by
    intro T hT
    by_cases hc : e2 + 1 < H.length
    · right
      rw [hT, if_pos hc, List.getElem?_drop]
      rcases hend2 with h | h
      · omega
      · simpa using h
    · left
      rw [hT, if_neg hc]
  generalize hT : (if e2 + 1 < H.length then H.drop e2 else []) = T at ht hplt
  have hTl : T = [] ∨ T[0]? = some ';' := htail T hT.symm
  by_cases hp0 : p < j1 - 1
  · -- the token starts in the part before the first range
    have hR : H.take (j1 - 1) ++ (H.drop e1).take (j2 - 1 - e1) ++ T =
        [] ++ (H.drop 0).take (j1 - 1) ++ ((H.drop e1).take (j2 - 1 - e1) ++ T) := by
      rw [List.drop_zero]; simp
    rw [hR] at ht
    have hV : (H.drop e1).take (j2 - 1 - e1) ++ T = [] ∨
        ((H.drop e1).take (j2 - 1 - e1) ++ T)[0]? = some ';' := by
      by_cases hm : 0 < j2 - 1 - e1
      · right
        rw [List.getElem?_append_left (by omega), slice_head H e1 _ hm]
        exact hsep1
      · have hnil : (H.drop e1).take (j2 - 1 - e1) = [] := by
          have : j2 - 1 - e1 = 0 := by omega
          rw [this]; rfl
        rw [hnil, List.nil_append]
        exact hTl
    have hrH : endBoundary H (0 + (j1 - 1)) := by
      right
      rw [Nat.zero_add]
      rcases hf1 with h | h
      · omega
      · exact h
    have := slice_token H [] _ B dec 0 (j1 - 1) hB hBne (by omega) (Or.inl ⟨rfl, rfl⟩) hV hrH p
      (by simp) (by simpa using hp0) ht
    rcases huniq _ this with h | h <;> simp at h <;> omega
  · by_cases hp1 : p < j1 - 1 + (j2 - 1 - e1)
    · -- the token starts between the two ranges
      have hrH : endBoundary H (e1 + (j2 - 1 - e1)) := by
        right
        have e : e1 + (j2 - 1 - e1) = j2 - 1 := by omega
        rw [e]; exact hsep2
      have := slice_token H (H.take (j1 - 1)) T B dec e1 (j2 - 1 - e1) hB hBne (by omega)
        (Or.inr hsep1) hTl hrH p (by omega) (by omega) ht
      rcases huniq _ this with h | h <;> rw [l0] at h <;> omega
    · -- the token starts behind the second range
      by_cases hc : e2 + 1 < H.length
      · rw [if_pos hc] at hT
        have hT2 : T = (H.drop e2).take (H.length - e2) := by
          rw [← hT]
          symm
          apply List.take_of_length_le
          simp
        have hR : H.take (j1 - 1) ++ (H.drop e1).take (j2 - 1 - e1) ++ T =
            (H.take (j1 - 1) ++ (H.drop e1).take (j2 - 1 - e1)) ++
              (H.drop e2).take (H.length - e2) ++ [] := by
          rw [hT2]; simp
        have hlenT : T.length = H.length - e2 := by rw [← hT]; simp
        have hlenR : (H.take (j1 - 1) ++ (H.drop e1).take (j2 - 1 - e1) ++ T).length =
            j1 - 1 + (j2 - 1 - e1) + (H.length - e2) := by
          rw [List.length_append, List.length_append, l0, l1, hlenT]
        rw [hlenR] at hplt
        rw [hR] at ht
        have hsepe2 : H[e2]? = some ';' := by
          rcases hend2 with h | h
          · omega
          · exact h
        have hU : (H.take (j1 - 1) ++ (H.drop e1).take (j2 - 1 - e1)).length =
            j1 - 1 + (j2 - 1 - e1) := by
          rw [List.length_append, l0, l1]
        have := slice_token H _ [] B dec e2 (H.length - e2) hB hBne (by omega)
          (Or.inr hsepe2) (Or.inl rfl) (Or.inl (by omega)) p (by rw [hU]; omega)
          (by rw [hU]; omega) ht
        rcases huniq _ this with h | h <;> rw [hU] at h <;> omega
      · rw [if_neg hc] at hT
        subst hT
        simp only [List.append_nil, List.length_append, l0, l1] at hplt
        omega

/-- Boundaries and run of a token, as the code sees them. -/
theorem tokenAt_facts {H A : List Char} {dec : Bool} {j : Nat} (h : tokenAt H A dec j) :
    frontBoundary H j ∧ 0 < runLen H A dec j ∧
      j + A.length + runLen H A dec j ≤ H.length ∧
      endBoundary H (j + A.length + runLen H A dec j) := by
  have hb := acceptsAt_bound ((tokenAt_iff_acceptsAt H A dec j).mp h)
  obtain ⟨-, hf, k, hk, hch, hend⟩ := h
  have hr := runLen_eq_of_chars hch hend
  rw [hr]
  rw [hr] at hb
  exact ⟨hf, hk, hb.1, hend⟩

theorem size_ee_token_distinct {H : List Char} {d1 d2 : Bool} {j : Nat}
    (hs : tokenAt H "size=".toList d1 j) (he : tokenAt H "ee=".toList d2 j) : False :=
  size_ee_distinct ((tokenAt_iff_acceptsAt _ _ _ _).mp hs) ((tokenAt_iff_acceptsAt _ _ _ _).mp he)

theorem tokens_disjoint {H A B : List Char} {decA decB : Bool} {j1 j2 : Nat} (hA : ';' ∉ A)
    (h1 : tokenAt H A decA j1) (h2 : tokenAt H B decB j2) (hlt : j1 < j2) :
    j1 + A.length + runLen H A decA j1 < j2 :=
  accepts_disjoint hA ((tokenAt_iff_acceptsAt _ _ _ _).mp h1)
    ((tokenAt_iff_acceptsAt _ _ _ _).mp h2) hlt

/-- A lookup on a header that holds exactly one token of the name returns
the range of that token. -/
theorem find_of_unique (H A : List Char) (dec : Bool) (hA : ';' ∉ A) (j : Nat)
    (ht : tokenAt H A dec j) (huniq : ∀ j', tokenAt H A dec j' → j' = j) :
    header_find_attribute H H.length A dec =
      some (some ((j : Int), ((j + A.length + runLen H A dec j : Nat) : Int))) := by
  rcases find_token_spec H A dec hA with ⟨j0, ht0, -, hres⟩ | ⟨hno, -⟩
  · have := huniq j0 ht0
    subst this
    exact hres
  · exact absurd ht (hno j)

theorem find_none_of_no_token (R A : List Char) (dec : Bool) (hA : ';' ∉ A)
    (hno : ∀ p, ¬ tokenAt R A dec p) :
    header_find_attribute R R.length A dec = some none := by
  rcases find_token_spec R A dec hA with ⟨j0, ht0, -, -⟩ | ⟨-, hres⟩
  · exact absurd ht0 (hno j0)
  · exact hres

/-- C10, amended. For every header (length = text length) that holds exactly
one size token and exactly one ee token in the sense of the code (`ee=`
followed by one or more characters that are digits or `.`), in either order:
the text `R` written by `header_fprint_strip_size_ee` with both flags set
holds no annotation any more, i.e. `header_find_attribute` returns false on
`R` for `size=` and for `ee=`. -/
theorem C10_strip_then_find_nothing (H : List Char)
    (hs : ∃! j, tokenAt H "size=".toList false j) (he : ∃! j, tokenAt H "ee=".toList true j) :
    ∃ R, header_fprint_strip_size_ee H H.length true true = some R ∧
      header_find_attribute R R.length "size=".toList false = some none ∧
      header_find_attribute R R.length "ee=".toList true = some none := by
  obtain ⟨js, hts, hus⟩ := hs
  obtain ⟨je, hte, hue⟩ := he
  have hfs := find_of_unique H _ false sep_not_mem_size js hts hus
  have hfe := find_of_unique H _ true sep_not_mem_ee je hte hue
  obtain ⟨hsf, hsr, hsb, hse⟩ := tokenAt_facts hts
  obtain ⟨hef, her, heb, hee⟩ := tokenAt_facts hte
  have hl5 : "size=".toList.length = 5 := rfl
  have hl3 : "ee=".toList.length = 3 := rfl
  rw [fprint_unfold H H.length true true _ _ (by unfold sizeLookup; rw [if_pos rfl]; exact hfs)
    (by unfold eeLookup; rw [if_pos rfl]; exact hfe)]
  simp only [Option.toList, List.singleton_append, sort_attributes]
  rcases Nat.lt_trichotomy js je with hlt | heq | hgt
  · have hd := tokens_disjoint sep_not_mem_size hts hte hlt
    rw [if_neg (by omega), print_two H js _ je _ hd]
    refine ⟨_, rfl, ?_, ?_⟩
    · apply find_none_of_no_token _ _ _ sep_not_mem_size
      exact no_token_in_stripped H _ false sep_not_mem_size (by decide) js _ je _ (by omega) hd
        (by omega) heb hsf hef hse hee (fun j hj => Or.inl (hus j hj))
    · apply find_none_of_no_token _ _ _ sep_not_mem_ee
      exact no_token_in_stripped H _ true sep_not_mem_ee (by decide) js _ je _ (by omega) hd
        (by omega) heb hsf hef hse hee (fun j hj => Or.inr (hue j hj))
  · subst heq
    exact absurd hte (fun h => size_ee_token_distinct hts h)
  · have hd := tokens_disjoint sep_not_mem_ee hte hts hgt
    rw [if_pos (by omega), print_two H je _ js _ hd]
    refine ⟨_, rfl, ?_, ?_⟩
    · apply find_none_of_no_token _ _ _ sep_not_mem_size
      exact no_token_in_stripped H _ false sep_not_mem_size (by decide) je _ js _ (by omega) hd
        (by omega) hsb hef hsf hee hse (fun j hj => Or.inr (hus j hj))
    · apply find_none_of_no_token _ _ _ sep_not_mem_ee
      exact no_token_in_stripped H _ true sep_not_mem_ee (by decide) je _ js _ (by omega) hd
        (by omega) hsb hef hsf hee hse (fun j hj => Or.inl (hue j hj))

theorem tokenAt_accepts {H A : List Char} {dec : Bool} {j : Nat} (h : tokenAt H A dec j) :
    j < H.length ∧ acceptsAt H H.length A dec j :=
  ⟨tokenAt_lt_length h, (tokenAt_iff_acceptsAt H A dec j).mp h⟩

/-- Witness of C10: the header `seq1;size=7;ee=0.5`. -/
theorem C10_strip_then_find_nothing_witness :
    ∃ R, header_fprint_strip_size_ee "seq1;size=7;ee=0.5".toList
        "seq1;size=7;ee=0.5".toList.length true true = some R ∧
      header_find_attribute R R.length "size=".toList false = some none ∧
      header_find_attribute R R.length "ee=".toList true = some none :=
  C10_strip_then_find_nothing "seq1;size=7;ee=0.5".toList
    ⟨5, (tokenAt_iff_acceptsAt _ _ _ _).mpr (by decide), by
      intro j hj
      obtain ⟨hlt, hacc⟩ := tokenAt_accepts hj
      have hlt18 : j < 18 := hlt
      interval_cases j
      all_goals first
        | rfl
        | exact absurd hacc (by decide)⟩
    ⟨12, (tokenAt_iff_acceptsAt _ _ _ _).mpr (by decide), by
      intro j hj
      obtain ⟨hlt, hacc⟩ := tokenAt_accepts hj
      have hlt18 : j < 18 := hlt
      interval_cases j
      all_goals first
        | rfl
        | exact absurd hacc (by decide)⟩

/-- C10 as stated fails: the header `ee=1.2.3;ee=5;size=3` holds exactly one
token `size=<digits>` and exactly one token `ee=<digits>[.<digits>]` (the
text `ee=1.2.3` is none), the code strips `ee=1.2.3` and `size=3`, and a
lookup of `ee=` on the text written, `;ee=5`, returns true. -/
theorem C10_counterexample :
    (∃! j, sizeTokenAt "ee=1.2.3;ee=5;size=3".toList j) ∧
      (∃! j, eeTokenAt "ee=1.2.3;ee=5;size=3".toList j) ∧
      header_fprint_strip_size_ee "ee=1.2.3;ee=5;size=3".toList 20 true true =
        some ";ee=5".toList ∧
      header_find_attribute ";ee=5".toList 5 "ee=".toList true = some (some (1, 5)) := by
  refine ⟨⟨14, ?_, ?_⟩, ⟨9, ?_, ?_⟩, by decide, by decide⟩
  · exact (sizeTokenAt_iff_tokenAt _ _).mpr ((tokenAt_iff_acceptsAt _ _ _ _).mpr (by decide))
  · intro j hj
    obtain ⟨hlt, hacc⟩ := sizeTokenAt_accepts hj
    have hlt20 : j < 20 := hlt
    interval_cases j
    all_goals first
      | rfl
      | exact absurd hacc (by decide)
  · refine ⟨by unfold nameAt; decide, Or.inr (by decide), 1, by decide, ?_, Or.inl (Or.inr (by decide))⟩
    intro t ht
    have : t = 0 := by omega
    subst this
    exact ⟨'5', by decide, by unfold isDigitChar; decide⟩
  · intro j hj
    obtain ⟨hlt, hacc⟩ := tokenAt_accepts (eeTokenAt_tokenAt hj)
    have hlt20 : j < 20 := hlt
    interval_cases j
    all_goals first
      | rfl
      | exact absurd hacc (by decide)
      | exact absurd hj (not_eeTokenAt_two_dots ";ee=5;size=3".toList)

/-! ## Range bounds and termination of `header_find_attribute` -/

/-- C12 as stated fails: for the buffer `size=123` and `header_length` 6 the
value run crosses position 6, the call returns true and `end` is 8. -/
theorem C12_counterexample :
    (6 : Int) ≤ ("size=123".toList.length : Int) ∧
      header_find_attribute "size=123".toList 6 "size=".toList false = some (some (0, 8)) ∧
      ¬ ((8 : Int) ≤ 6) := by
  refine ⟨by decide, by decide, by decide⟩

/-- C12, amended. For every header buffer, every header length, every
attribute name and both values of `allow_decimal`: a true result of
`header_find_attribute` satisfies `0 <= start`, `start + |A| < end` and
`end <=` the length of the buffer's text; so the range lies within the header
whenever `header_length` is the length of the text. -/
theorem C12_range_within_text (H : List Char) (hlen : Int) (A : List Char) (dec : Bool)
    (s e : Int) (h : header_find_attribute H hlen A dec = some (some (s, e))) :
    0 ≤ s ∧ s + A.length < e ∧ e ≤ H.length ∧ (hlen = H.length → e ≤ hlen) := by
  obtain ⟨j, hs, he, hacc⟩ := find_sound h
  have hb := (acceptsAt_bound hacc).1
  have hr := hacc.2.2.1
  subst hs; subst he
  refine ⟨by omega, by omega, by omega, ?_⟩
  intro hl
  omega

/-- Witness of C12: the run of `size=123` crosses `header_length` 6 and the
range ends with the text. -/
theorem C12_range_within_text_witness :
    (0 : Int) ≤ 0 ∧ (0 : Int) + "size=".toList.length < 8 ∧
      (8 : Int) ≤ "size=123".toList.length ∧
      ((6 : Int) = "size=123".toList.length → (8 : Int) ≤ 6) :=
  C12_range_within_text "size=123".toList 6 "size=".toList false 0 8 (by decide)

/-- A result of the loop does not change when more fuel is supplied. -/
theorem loop_fuel_mono (H : List Char) (hlen : Int) (A : List Char) (dec : Bool) :
    ∀ (fuel k : Nat) (r : Option (Int × Int)),
      header_find_attribute_loop H hlen A dec fuel k = some r →
      ∀ fuel2, fuel ≤ fuel2 → header_find_attribute_loop H hlen A dec fuel2 k = some r := by
  intro fuel
  induction fuel with
  | zero => intro k r h; simp [header_find_attribute_loop] at h
  | succ fuel ih =>
    intro k r h fuel2 hle
    obtain ⟨f2, rfl⟩ : ∃ f2, fuel2 = f2 + 1 := ⟨fuel2 - 1, by omega⟩
    rw [loop_unfold] at h ⊢
    split
    · rename_i hc
      rw [if_pos hc] at h
      cases hs : strstr (H.drop k) A with
      | none => rw [hs] at h; exact h
      | some off =>
        rw [hs] at h
        simp only [] at h ⊢
        split
        · rename_i hb
          rw [if_pos hb] at h
          exact ih _ r h f2 (by omega)
        · rename_i hb
          rw [if_neg hb] at h
          split
          · rename_i hd
            rw [if_pos hd] at h
            exact ih _ r h f2 (by omega)
          · rename_i hd
            rw [if_neg hd] at h
            split
            · rename_i ht
              rw [if_pos ht] at h
              exact ih _ r h f2 (by omega)
            · rename_i ht
              rw [if_neg ht] at h
              exact h
    · rename_i hc
      rw [if_neg hc] at h
      exact h

/-- One turn of the loop at cursor `k` either ends the loop with a result or
resumes at a cursor that is larger by at least `|A| + 1`. -/
theorem loop_turn (H : List Char) (hlen : Int) (A : List Char) (dec : Bool) (k : Nat) :
    (∃ r, ∀ fuel, header_find_attribute_loop H hlen A dec (fuel + 1) k = some r) ∨
      (∃ k2 : Nat, k + A.length + 1 ≤ k2 ∧
        ∀ fuel, header_find_attribute_loop H hlen A dec (fuel + 1) k =
          header_find_attribute_loop H hlen A dec fuel k2) := by
  by_cases hc : (k : Int) + A.length < hlen
  · cases hs : strstr (H.drop k) A with
    | none =>
      left
      refine ⟨none, fun fuel => ?_⟩
      rw [loop_unfold, if_pos hc, hs]
    | some off =>
      by_cases hb : 0 < k + off ∧ H.getD (k + off - 1) '\x00' ≠ ';'
      · right
        refine ⟨k + off + A.length + 1, by omega, fun fuel => ?_⟩
        rw [loop_unfold, if_pos hc, hs]
        simp only []
        rw [if_pos hb]
      · by_cases hd : runLen H A dec (k + off) = 0
        · right
          refine ⟨k + off + A.length + 1, by omega, fun fuel => ?_⟩
          rw [loop_unfold, if_pos hc, hs]
          simp only []
          rw [if_neg hb, if_pos hd]
        · by_cases ht : ((k + off + A.length + runLen H A dec (k + off) : Nat) : Int) < hlen
              ∧ H.getD (k + off + A.length + runLen H A dec (k + off)) '\x00' ≠ ';'
          · right
            refine ⟨k + off + A.length + runLen H A dec (k + off) + 2, by omega,
              fun fuel => ?_⟩
            rw [loop_unfold, if_pos hc, hs]
            simp only []
            rw [if_neg hb, if_neg hd, if_pos ht]
          · left
            refine ⟨some (((k + off : Nat) : Int),
              ((k + off + A.length + runLen H A dec (k + off) : Nat) : Int)), fun fuel => ?_⟩
            rw [loop_unfold, if_pos hc, hs]
            simp only []
            rw [if_neg hb, if_neg hd, if_neg ht]
  · left
    refine ⟨none, fun fuel => ?_⟩
    rw [loop_unfold, if_neg hc]

/-- C15. Function `header_find_attribute` terminates on every input: the fuel
it supplies always yields a result, and so does every larger amount, with the
same result; one turn of the loop at cursor `i` either ends the loop (return
or break) or resumes at a cursor that is at least `i + |A| + 1`; and a turn
entered with `i >= header_length - |A|` ends the loop with the result
false. -/
theorem C15_find_terminates (H : List Char) (hlen : Int) (A : List Char) (dec : Bool) :
    (∃ r, header_find_attribute H hlen A dec = some r ∧
        ∀ fuel, hlen.toNat + 1 ≤ fuel →
          header_find_attribute_loop H hlen A dec fuel 0 = some r) ∧
      (∀ k : Nat,
        (∃ r, ∀ fuel, header_find_attribute_loop H hlen A dec (fuel + 1) k = some r) ∨
        (∃ k2 : Nat, k + A.length + 1 ≤ k2 ∧
          ∀ fuel, header_find_attribute_loop H hlen A dec (fuel + 1) k =
            header_find_attribute_loop H hlen A dec fuel k2)) ∧
      (∀ (k fuel : Nat), hlen - A.length ≤ k →
        header_find_attribute_loop H hlen A dec (fuel + 1) k = some none) := by
  refine ⟨?_, loop_turn H hlen A dec, ?_⟩
  · cases hr : header_find_attribute H hlen A dec with
    | none => exact absurd hr (find_total H hlen A dec)
    | some r =>
      refine ⟨r, rfl, ?_⟩
      intro fuel hfuel
      unfold header_find_attribute at hr
      exact loop_fuel_mono H hlen A dec _ 0 r hr fuel hfuel
  · intro k fuel hk
    rw [loop_unfold, if_neg (by omega)]

/-! ## `minheap.h` -/

/-- C16. For every heap state `m`: `minheap_isempty` is non-zero exactly
when `m.count = 0`; after `minheap_empty` it is non-zero; and `minheap_empty`
leaves `alloc` and the backing array unchanged and sets `count` to 0. -/
theorem C16_minheap_empty_frame (m : minheap_t) :
    (minheap_isempty m ≠ 0 ↔ m.count = 0) ∧
      minheap_isempty (minheap_empty m) ≠ 0 ∧
      (minheap_empty m).alloc = m.alloc ∧
      (minheap_empty m).array = m.array ∧
      (minheap_empty m).count = 0 := by
  refine ⟨?_, ?_, rfl, rfl, rfl⟩
  · unfold minheap_isempty
    by_cases h : m.count = 0
    · simp [h]
    · simp [h]
  · simp [minheap_isempty, minheap_empty]

/-! ## Exact output of the printing branch -/

theorem lookup_total (H : List Char) (hlen : Int) (A : List Char) (dec flag : Bool) :
    ∃ r, (if flag then header_find_attribute H hlen A dec else some none) = some r := by
  cases flag with
  | false => exact ⟨none, rfl⟩
  | true =>
    cases hr : header_find_attribute H hlen A dec with
    | none => exact absurd hr (find_total H hlen A dec)
    | some r => exact ⟨r, rfl⟩

/-- The text written in front of a range that starts at `s`, when the
previous range ended at `p`. -/
theorem front_part (H out : List Char) (s p : Int) :
    (if s > p + 1 then out ++ fprintf_s (s - p - 1) (H.drop p.toNat) else out) =
      out ++ slice H p (s - 1) := by
  unfold slice fprintf_s
  by_cases h : s > p + 1
  · rw [if_pos h, if_neg (by omega)]
    have e : s - p - 1 = s - 1 - p := by omega
    rw [e]
  · rw [if_neg h]
    have e : (s - 1 - p).toNat = 0 := by omega
    rw [e]
    simp

/-- The text written behind the last range. -/
theorem tail_part (H out : List Char) (n e : Int) :
    (if n > e + 1 then out ++ fprintf_s (n - e) (H.drop e.toNat) else out) =
      out ++ tailBehind H n e := by
  unfold tailBehind slice fprintf_s
  by_cases h : n > e + 1
  · rw [if_pos h, if_pos h, if_neg (by omega)]
  · rw [if_neg h, if_neg h]
    simp

theorem print_one_exact (H : List Char) (n : Int) (r : Int × Int) :
    print_stripped H n [r] = slice H 0 (r.1 - 1) ++ tailBehind H n r.2 := by
  unfold print_stripped
  simp only [List.length_singleton, one_ne_zero, if_false, List.foldl_cons, List.foldl_nil,
    print_step]
  rw [front_part H [] r.1 0, tail_part]
  simp

theorem print_two_exact (H : List Char) (n : Int) (r1 r2 : Int × Int) :
    print_stripped H n [r1, r2] =
      slice H 0 (r1.1 - 1) ++ slice H r1.2 (r2.1 - 1) ++ tailBehind H n r2.2 := by
  unfold print_stripped
  simp only [List.length_cons, List.length_nil, List.foldl_cons, List.foldl_nil, print_step]
  rw [if_neg (by omega), front_part H [] r1.1 0, front_part, tail_part]
  simp

/-- C14. Exact output when at least one annotation is found, for every
header `H` and header length `n`: with one found range `[s1, e1)` the text
written is `H[0 .. s1-1)` followed by the tail `H[e1 .. n)` if `n > e1 + 1`
and by nothing otherwise; with two found ranges, taken in the order of their
start offsets, it is `H[0 .. s1-1)`, then `H[e1 .. s2-1)`, then the tail
`H[e2 .. n)` if `n > e2 + 1`.  So `size=7;foo` is written as `;foo` and
`seq1;size=7;` as `seq1`. -/
theorem C14_exact_output (H : List Char) (n : Int) (strip_size strip_ee : Bool) :
    ∃ size_found ee_found,
      sizeLookup H n strip_size = some size_found ∧
      eeLookup H n strip_ee = some ee_found ∧
      (∀ r, size_found.toList ++ ee_found.toList = [r] →
        header_fprint_strip_size_ee H n strip_size strip_ee =
          some (slice H 0 (r.1 - 1) ++ tailBehind H n r.2)) ∧
      (∀ r1 r2,
        (size_found.toList ++ ee_found.toList = [r1, r2] ∧ r1.1 ≤ r2.1) ∨
          (size_found.toList ++ ee_found.toList = [r2, r1] ∧ r1.1 < r2.1) →
        header_fprint_strip_size_ee H n strip_size strip_ee =
          some (slice H 0 (r1.1 - 1) ++ slice H r1.2 (r2.1 - 1) ++ tailBehind H n r2.2)) ∧
      header_fprint_strip_size_ee "size=7;foo".toList 10 true true = some ";foo".toList ∧
      header_fprint_strip_size_ee "seq1;size=7;".toList 12 true true = some "seq1".toList := by
  obtain ⟨sf, hsf⟩ := lookup_total H n "size=".toList false strip_size
  obtain ⟨ef, hef⟩ := lookup_total H n "ee=".toList true strip_ee
  refine ⟨sf, ef, hsf, hef, ?_, ?_, by decide, by decide⟩
  · intro r hr
    rw [fprint_unfold H n strip_size strip_ee sf ef hsf hef, hr]
    simp only [sort_attributes]
    rw [print_one_exact]
  · intro r1 r2 hr
    rw [fprint_unfold H n strip_size strip_ee sf ef hsf hef]
    rcases hr with ⟨hr, hle⟩ | ⟨hr, hlt⟩
    · rw [hr]
      simp only [sort_attributes]
      rw [if_neg (by omega), print_two_exact]
    · rw [hr]
      simp only [sort_attributes]
      rw [if_pos (by omega), print_two_exact]

/-! ## Headers made of a label and two annotations -/

/-- A lookup returns the range of the first token. -/
theorem find_of_first (H A : List Char) (dec : Bool) (hA : ';' ∉ A) (j : Nat)
    (ht : tokenAt H A dec j) (hfirst : ∀ j', j' < j → ¬ tokenAt H A dec j') :
    header_find_attribute H H.length A dec =
      some (some ((j : Int), ((j + A.length + runLen H A dec j : Nat) : Int))) := by
  rcases find_token_spec H A dec hA with ⟨j0, ht0, hfirst0, hres⟩ | ⟨hno, -⟩
  · have := first_unique ht0 ht hfirst0 hfirst
    subst this
    exact hres
  · exact absurd ht (hno j)

/-- A name without `;` that does not occur in the label `L` does not stand
at an offset of the label, nor at the separator behind it. -/
theorem no_name_in_label (L rest A : List Char) (hA : ';' ∉ A)
    (hL : ¬ A <:+: L) (j : Nat) (hj : j ≤ L.length) : ¬ nameAt (L ++ ';' :: rest) A j := by
  intro hn
  rw [nameAt_iff_getElem?] at hn
  by_cases h : j + A.length ≤ L.length
  · apply hL
    have hnL : nameAt L A j := by
      rw [nameAt_iff_getElem?]
      intro t ht
      rw [← hn t ht, List.getElem?_append_left (by omega)]
    unfold nameAt at hnL
    refine ⟨L.take j, L.drop (j + A.length), ?_⟩
    have h1 : L.drop (j + A.length) = (L.drop j).drop A.length := by
      rw [List.drop_drop]
    have h2 : L.drop j = A ++ (L.drop j).drop A.length := by
      have := (List.take_append_drop A.length (L.drop j)).symm
      rw [hnL] at this
      exact this
    rw [h1, List.append_assoc, ← h2, List.take_append_drop]
  · have ht : L.length - j < A.length := by omega
    have := hn (L.length - j) ht
    have e : j + (L.length - j) = L.length + 0 := by omega
    rw [e, getElem?_append_add, List.getElem?_eq_getElem ht] at this
    simp only [List.getElem?_cons_zero, Option.some.injEq] at this
    exact hA (this ▸ List.getElem_mem _)

/-- Both lookups on a header `L;A1 v1;A2 v2` whose label holds neither
name. -/
theorem two_annotations (L A1 v1 A2 v2 : List Char) (d1 d2 : Bool)
    (hA1 : ';' ∉ A1) (hA2 : ';' ∉ A2)
    (hL1 : ¬ A1 <:+: L) (hL2 : ¬ A2 <:+: L)
    (hv1 : v1 ≠ []) (hc1 : ∀ c ∈ v1, isValueChar d1 c)
    (hv2 : v2 ≠ []) (hc2 : ∀ c ∈ v2, isValueChar d2 c)
    (hdist : ∀ (H : List Char) (j : Nat), tokenAt H A1 d1 j → tokenAt H A2 d2 j → False)
    (H : List Char) (hH : H = (L ++ [';']) ++ A1 ++ v1 ++ (';' :: (A2 ++ v2))) :
    header_find_attribute H H.length A1 d1 =
        some (some (((L.length + 1 : Nat) : Int),
          ((L.length + 1 + A1.length + v1.length : Nat) : Int))) ∧
      header_find_attribute H H.length A2 d2 =
        some (some (((L.length + 1 + A1.length + v1.length + 1 : Nat) : Int),
          ((L.length + 1 + A1.length + v1.length + 1 + A2.length + v2.length : Nat) : Int))) := by
  have hlab : H = L ++ ';' :: (A1 ++ v1 ++ ';' :: (A2 ++ v2)) := by rw [hH]; simp
  have hH2 : H = ((L ++ [';']) ++ A1 ++ v1 ++ [';']) ++ A2 ++ v2 ++ [] := by rw [hH]; simp
  have hp1 : (L ++ [';']).length = L.length + 1 := by simp
  have hp2 : ((L ++ [';']) ++ A1 ++ v1 ++ [';']).length
      = L.length + 1 + A1.length + v1.length + 1 := by simp; omega
  obtain ⟨ht1, hr1⟩ := tokenAt_of_parts (L ++ [';']) A1 v1 (';' :: (A2 ++ v2)) d1
    (Or.inr (List.getLast?_concat _)) hv1 hc1 (Or.inr rfl)
  rw [← hH, hp1] at ht1 hr1
  obtain ⟨ht2, hr2⟩ := tokenAt_of_parts ((L ++ [';']) ++ A1 ++ v1 ++ [';']) A2 v2 [] d2
    (Or.inr (List.getLast?_concat _)) hv2 hc2 (Or.inl rfl)
  rw [← hH2, hp2] at ht2 hr2
  have hfirst1 : ∀ j', j' < L.length + 1 → ¬ tokenAt H A1 d1 j' := by
    intro j' hj' ht
    have := ht.1
    rw [hlab] at this
    exact no_name_in_label L _ A1 hA1 hL1 j' (by omega) this
  have hfirst2 : ∀ j', j' < L.length + 1 + A1.length + v1.length + 1 →
      ¬ tokenAt H A2 d2 j' := by
    intro j' hj' ht
    by_cases h1 : j' ≤ L.length
    · have := ht.1
      rw [hlab] at this
      exact no_name_in_label L _ A2 hA2 hL2 j' h1 this
    · by_cases h2 : j' = L.length + 1
      · subst h2
        exact hdist H _ ht1 ht
      · have := tokens_disjoint hA1 ht1 ht (by omega)
        rw [hr1] at this
        omega
  constructor
  · rw [find_of_first H A1 d1 hA1 _ ht1 hfirst1, hr1]
  · rw [find_of_first H A2 d2 hA2 _ ht2 hfirst2, hr2]

/-- Length of a header `L;A1 v1;A2 v2`. -/
theorem two_annotations_length (L A1 v1 A2 v2 : List Char) :
    ((L ++ [';']) ++ A1 ++ v1 ++ (';' :: (A2 ++ v2))).length =
      L.length + 1 + A1.length + v1.length + 1 + A2.length + v2.length := by
  simp; omega

/-- Text written for `L;A1 v1;A2 v2` when both ranges are stripped. -/
theorem print_both (L A1 v1 A2 v2 : List Char) (H : List Char)
    (hH : H = (L ++ [';']) ++ A1 ++ v1 ++ (';' :: (A2 ++ v2))) :
    print_stripped H H.length
      [(((L.length + 1 : Nat) : Int), ((L.length + 1 + A1.length + v1.length : Nat) : Int)),
        (((L.length + 1 + A1.length + v1.length + 1 : Nat) : Int),
          ((L.length + 1 + A1.length + v1.length + 1 + A2.length + v2.length : Nat) : Int))] =
      L := by
  have hlen : H.length = L.length + 1 + A1.length + v1.length + 1 + A2.length + v2.length := by
    rw [hH]; exact two_annotations_length L A1 v1 A2 v2
  rw [print_two H _ _ _ _ (by omega), if_neg (by omega)]
  have e1 : L.length + 1 - 1 = L.length := by omega
  have e2 : L.length + 1 + A1.length + v1.length + 1 - 1
      - (L.length + 1 + A1.length + v1.length) = 0 := by omega
  rw [e1, e2]
  have hlab : H = L ++ ';' :: (A1 ++ v1 ++ ';' :: (A2 ++ v2)) := by rw [hH]; simp
  conv_lhs => rw [hlab]
  rw [List.take_left]
  simp

/-- Text written for `L;A1 v1;A2 v2` when only the first range is stripped. -/
theorem print_first_only (L A1 v1 A2 v2 : List Char) (hne2 : 0 < A2.length) (H : List Char)
    (hH : H = (L ++ [';']) ++ A1 ++ v1 ++ (';' :: (A2 ++ v2))) :
    print_stripped H H.length
      [(((L.length + 1 : Nat) : Int), ((L.length + 1 + A1.length + v1.length : Nat) : Int))] =
      L ++ ';' :: (A2 ++ v2) := by
  have hlen : H.length = L.length + 1 + A1.length + v1.length + 1 + A2.length + v2.length := by
    rw [hH]; exact two_annotations_length L A1 v1 A2 v2
  rw [print_one, if_pos (by omega)]
  have e1 : L.length + 1 - 1 = L.length := by omega
  rw [e1]
  have hlab : H = L ++ ';' :: (A1 ++ v1 ++ ';' :: (A2 ++ v2)) := by rw [hH]; simp
  have hdrop : H.drop (L.length + 1 + A1.length + v1.length) = ';' :: (A2 ++ v2) := by
    have e : L.length + 1 + A1.length + v1.length = ((L ++ [';']) ++ A1 ++ v1).length := by
      simp; omega
    rw [hH, e, List.drop_left]
  rw [hdrop]
  conv_lhs => rw [hlab]
  rw [List.take_left]

/-- Text written for `L;A1 v1;A2 v2` when only the second range is
stripped. -/
theorem print_second_only (L A1 v1 A2 v2 : List Char) (H : List Char)
    (hH : H = (L ++ [';']) ++ A1 ++ v1 ++ (';' :: (A2 ++ v2))) :
    print_stripped H H.length
      [(((L.length + 1 + A1.length + v1.length + 1 : Nat) : Int),
          ((L.length + 1 + A1.length + v1.length + 1 + A2.length + v2.length : Nat) : Int))] =
      L ++ ';' :: (A1 ++ v1) := by
  have hlen : H.length = L.length + 1 + A1.length + v1.length + 1 + A2.length + v2.length := by
    rw [hH]; exact two_annotations_length L A1 v1 A2 v2
  rw [print_one, if_neg (by omega)]
  have e1 : L.length + 1 + A1.length + v1.length + 1 - 1 = ((L ++ [';']) ++ A1 ++ v1).length := by
    simp; omega
  rw [e1]
  conv_lhs => rw [hH]
  rw [List.take_left]
  simp

theorem digitString_value {N : List Char} (h : digitString N) (dec : Bool) :
    N ≠ [] ∧ ∀ c ∈ N, isValueChar dec c :=
  ⟨h.1, fun c hc => Or.inl (h.2 c hc)⟩

theorem decimalString_value {E : List Char} (h : decimalString E) :
    E ≠ [] ∧ ∀ c ∈ E, isValueChar true c := by
  obtain ⟨a, ha, hE⟩ := h
  rcases hE with rfl | ⟨b, hb, rfl⟩
  · exact digitString_value ha true
  · refine ⟨by simp, ?_⟩
    intro c hc
    simp only [List.mem_append, List.mem_cons] at hc
    rcases hc with hc | hc | hc
    · exact Or.inl (ha.2 c hc)
    · exact Or.inr ⟨rfl, hc⟩
    · exact Or.inl (hb.2 c hc)

/-- The header `L;size=N;ee=E`, parted for the lemmas above. -/
theorem size_ee_header (L N E : List Char) :
    L ++ ";size=".toList ++ N ++ ";ee=".toList ++ E =
      (L ++ [';']) ++ "size=".toList ++ N ++ (';' :: ("ee=".toList ++ E)) := by
  have h1 : ";size=".toList = ';' :: "size=".toList := rfl
  have h2 : ";ee=".toList = ';' :: "ee=".toList := rfl
  rw [h1, h2]
  simp

/-- The header `L;ee=E;size=N`, parted for the lemmas above. -/
theorem ee_size_header (L N E : List Char) :
    L ++ ";ee=".toList ++ E ++ ";size=".toList ++ N =
      (L ++ [';']) ++ "ee=".toList ++ E ++ (';' :: ("size=".toList ++ N)) := by
  have h1 : ";size=".toList = ';' :: "size=".toList := rfl
  have h2 : ";ee=".toList = ';' :: "ee=".toList := rfl
  rw [h1, h2]
  simp

/-- C11. Annotate-then-strip returns the label: for every label `L` that
holds neither `size=` nor `ee=`, every non-empty digit string `N` and every
value `E` of the form `digits[.digits]`, `header_fprint_strip_size_ee` with
both flags set writes exactly `L` for the header `L;size=N;ee=E` and for the
header `L;ee=E;size=N`. -/
theorem C11_annotate_then_strip (L N E : List Char) (hLs : ¬ "size=".toList <:+: L)
    (hLe : ¬ "ee=".toList <:+: L) (hN : digitString N) (hE : decimalString E) :
    header_fprint_strip_size_ee (L ++ ";size=".toList ++ N ++ ";ee=".toList ++ E)
        ((L ++ ";size=".toList ++ N ++ ";ee=".toList ++ E).length) true true = some L ∧
      header_fprint_strip_size_ee (L ++ ";ee=".toList ++ E ++ ";size=".toList ++ N)
        ((L ++ ";ee=".toList ++ E ++ ";size=".toList ++ N).length) true true = some L := by
  obtain ⟨hN1, hN2⟩ := digitString_value hN false
  obtain ⟨hE1, hE2⟩ := decimalString_value hE
  constructor
  · generalize hH : L ++ ";size=".toList ++ N ++ ";ee=".toList ++ E = H
    have hH' := (size_ee_header L N E).symm.trans hH
    obtain ⟨hfs, hfe⟩ := two_annotations L "size=".toList N "ee=".toList E false true
      sep_not_mem_size sep_not_mem_ee hLs hLe hN1 hN2 hE1 hE2
      (fun _ _ h1 h2 => size_ee_token_distinct h1 h2) H hH'.symm
    rw [fprint_unfold H H.length true true _ _ (by unfold sizeLookup; rw [if_pos rfl]; exact hfs)
      (by unfold eeLookup; rw [if_pos rfl]; exact hfe)]
    simp only [Option.toList, List.singleton_append, sort_attributes]
    rw [if_neg (by omega), print_both L _ N _ E H hH'.symm]
  · generalize hH : L ++ ";ee=".toList ++ E ++ ";size=".toList ++ N = H
    have hH' := (ee_size_header L N E).symm.trans hH
    obtain ⟨hfe, hfs⟩ := two_annotations L "ee=".toList E "size=".toList N true false
      sep_not_mem_ee sep_not_mem_size hLe hLs hE1 hE2 hN1 hN2
      (fun _ _ h1 h2 => size_ee_token_distinct h2 h1) H hH'.symm
    rw [fprint_unfold H H.length true true _ _ (by unfold sizeLookup; rw [if_pos rfl]; exact hfs)
      (by unfold eeLookup; rw [if_pos rfl]; exact hfe)]
    simp only [Option.toList, List.singleton_append, sort_attributes]
    rw [if_pos (by omega), print_both L _ E _ N H hH'.symm]

/-- Witness of C11: `seq1;size=7;ee=0.5` and `seq1;ee=0.5;size=7` are written
as `seq1`. -/
theorem C11_annotate_then_strip_witness :
    header_fprint_strip_size_ee
        ("seq1".toList ++ ";size=".toList ++ "7".toList ++ ";ee=".toList ++ "0.5".toList)
        (("seq1".toList ++ ";size=".toList ++ "7".toList ++ ";ee=".toList ++
          "0.5".toList).length) true true = some "seq1".toList ∧
      header_fprint_strip_size_ee
        ("seq1".toList ++ ";ee=".toList ++ "0.5".toList ++ ";size=".toList ++ "7".toList)
        (("seq1".toList ++ ";ee=".toList ++ "0.5".toList ++ ";size=".toList ++
          "7".toList).length) true true = some "seq1".toList :=
  C11_annotate_then_strip "seq1".toList "7".toList "0.5".toList (by decide) (by decide)
    ⟨by decide, by decide⟩
    ⟨"0".toList, ⟨by decide, by decide⟩, Or.inr ⟨"5".toList, ⟨by decide, by decide⟩, rfl⟩⟩

/-- C13. Size-only stripping leaves the ee annotation intact: for every
label `L` that holds neither `size=` nor `ee=`, every non-empty digit string
`N` and every value `E` of the form `digits[.digits]`,
`header_fprint_strip_size` writes `L;ee=E` for the header `L;size=N;ee=E` and
for the header `L;ee=E;size=N`; and for every header it writes what
`header_fprint_strip_size_ee` writes with `strip_size` set and `strip_ee`
not set. -/
theorem C13_size_only_strip (L N E : List Char) (hLs : ¬ "size=".toList <:+: L)
    (hLe : ¬ "ee=".toList <:+: L) (hN : digitString N) (hE : decimalString E) :
    header_fprint_strip_size (L ++ ";size=".toList ++ N ++ ";ee=".toList ++ E)
        ((L ++ ";size=".toList ++ N ++ ";ee=".toList ++ E).length) =
        some (L ++ ";ee=".toList ++ E) ∧
      header_fprint_strip_size (L ++ ";ee=".toList ++ E ++ ";size=".toList ++ N)
        ((L ++ ";ee=".toList ++ E ++ ";size=".toList ++ N).length) =
        some (L ++ ";ee=".toList ++ E) ∧
      (∀ (H : List Char) (hlen : Int),
        header_fprint_strip_size H hlen = header_fprint_strip_size_ee H hlen true false) := by
  obtain ⟨hN1, hN2⟩ := digitString_value hN false
  obtain ⟨hE1, hE2⟩ := decimalString_value hE
  have h2 : ";ee=".toList = ';' :: "ee=".toList := rfl
  refine ⟨?_, ?_, fun _ _ => rfl⟩
  · unfold header_fprint_strip_size
    generalize hH : L ++ ";size=".toList ++ N ++ ";ee=".toList ++ E = H
    have hH' := (size_ee_header L N E).symm.trans hH
    obtain ⟨hfs, -⟩ := two_annotations L "size=".toList N "ee=".toList E false true
      sep_not_mem_size sep_not_mem_ee hLs hLe hN1 hN2 hE1 hE2
      (fun _ _ h1 h2 => size_ee_token_distinct h1 h2) H hH'.symm
    rw [fprint_unfold H H.length true false _ none
      (by unfold sizeLookup; rw [if_pos rfl]; exact hfs) rfl]
    simp only [Option.toList, List.append_nil, sort_attributes]
    rw [print_first_only L _ N _ E (by decide) H hH'.symm, h2]
    simp
  · unfold header_fprint_strip_size
    generalize hH : L ++ ";ee=".toList ++ E ++ ";size=".toList ++ N = H
    have hH' := (ee_size_header L N E).symm.trans hH
    obtain ⟨-, hfs⟩ := two_annotations L "ee=".toList E "size=".toList N true false
      sep_not_mem_ee sep_not_mem_size hLe hLs hE1 hE2 hN1 hN2
      (fun _ _ h1 h2 => size_ee_token_distinct h2 h1) H hH'.symm
    rw [fprint_unfold H H.length true false _ none
      (by unfold sizeLookup; rw [if_pos rfl]; exact hfs) rfl]
    simp only [Option.toList, List.append_nil, sort_attributes]
    rw [print_second_only L _ E _ N H hH'.symm, h2]
    simp

/-- Witness of C13: `seq1;size=7;ee=0.5` and `seq1;ee=0.5;size=7` are written
as `seq1;ee=0.5`. -/
theorem C13_size_only_strip_witness :
    header_fprint_strip_size
        ("seq1".toList ++ ";size=".toList ++ "7".toList ++ ";ee=".toList ++ "0.5".toList)
        (("seq1".toList ++ ";size=".toList ++ "7".toList ++ ";ee=".toList ++
          "0.5".toList).length) =
        some ("seq1".toList ++ ";ee=".toList ++ "0.5".toList) ∧
      header_fprint_strip_size
        ("seq1".toList ++ ";ee=".toList ++ "0.5".toList ++ ";size=".toList ++ "7".toList)
        (("seq1".toList ++ ";ee=".toList ++ "0.5".toList ++ ";size=".toList ++
          "7".toList).length) =
        some ("seq1".toList ++ ";ee=".toList ++ "0.5".toList) ∧
      (∀ (H : List Char) (hlen : Int),
        header_fprint_strip_size H hlen = header_fprint_strip_size_ee H hlen true false) :=
  C13_size_only_strip "seq1".toList "7".toList "0.5".toList (by decide) (by decide)
    ⟨by decide, by decide⟩
    ⟨"0".toList, ⟨by decide, by decide⟩, Or.inr ⟨"5".toList, ⟨by decide, by decide⟩, rfl⟩⟩

/-! ## Headers without annotations -/

end Vsearch
